import Mathlib

/-!
Verification of the `RasaModelData` container (rasa/utils/tf_model_data.py).

The Python class stores a dict mapping string keys to lists of numpy arrays
("columns"); every column is example-aligned along its leading dimension.
We embed the data model shallowly:

* a numpy array entry (one example/row of a column) is an `Arr`, a nested
  tree of integer scalars — enough structure to express `ndim`, `shape`,
  `size` and the slicing the source performs (dtype is immaterial to every
  claim, so scalars are `Int`);
* a column (one ndarray) is a `List Arr` of its rows;
* the dict is an insertion-ordered association list, mirroring Python 3.7+
  dict semantics (assignment to an existing key keeps its position,
  assignment to a fresh key appends at the end).

Fallible methods return `Except DataErr`; the Python `ValueError`s raised at
the various check sites are distinguished by which check fired, matching the
error taxonomy of the specification.
-/

set_option autoImplicit false
set_option maxRecDepth 4000

namespace TfData

/-- One per-example entry of a feature column: a nested (numpy-like) array of
integer scalars. -/
inductive Arr where
  | scalar (v : Int)
  | vec (elems : List Arr)

namespace Arr

mutual

/-- `np.ndarray.size` restricted to one row: total number of scalar
elements. For a whole (uniform) column the numpy `size` is the sum of its
rows' sizes, see `colSize` below. -/
def size : Arr → Nat
  | .scalar _ => 1
  | .vec l => sizeList l

def sizeList : List Arr → Nat
  | [] => 0
  | a :: as => size a + sizeList as

end

/-- Number of dimensions of a row, read off the leading elements exactly as
numpy determines it for a uniform array. -/
def ndim : Arr → Nat
  | .scalar _ => 0
  | .vec [] => 1
  | .vec (x :: _) => 1 + x.ndim

/-- Shape of a row, read off the leading elements (uniform arrays only). -/
def shape : Arr → List Nat
  | .scalar _ => []
  | .vec [] => [0]
  | .vec (x :: xs) => (xs.length + 1) :: x.shape

/-- `x.shape[0]` of a row; `0` stands in for the `IndexError` numpy raises
on a 0-d entry (no claim exercises that path). -/
def dim0 : Arr → Nat
  | .scalar _ => 0
  | .vec l => l.length

/-- The value of a 0-d entry (junk `0` on a non-scalar, which uniform numpy
data cannot produce where this is used). -/
def scalarVal : Arr → Int
  | .scalar v => v
  | .vec _ => 0

/-- The immediate sub-entries of a row. -/
def elems : Arr → List Arr
  | .scalar _ => []
  | .vec l => l

mutual

/-- Structural equality test (manual, because of the nested `List`). -/
def beq : Arr → Arr → Bool
  | .scalar a, .scalar b => a == b
  | .vec l1, .vec l2 => beqList l1 l2
  | .scalar _, .vec _ => false
  | .vec _, .scalar _ => false

def beqList : List Arr → List Arr → Bool
  | [], [] => true
  | a :: as, b :: bs => beq a b && beqList as bs
  | [], _ :: _ => false
  | _ :: _, [] => false

end

instance : BEq Arr := ⟨Arr.beq⟩

mutual

theorem beq_iff : ∀ a b : Arr, beq a b = true ↔ a = b
  | .scalar a, .scalar b => by
    simp only [beq, beq_iff_eq, Arr.scalar.injEq]
  | .vec l1, .vec l2 => by
    simpa only [beq, Arr.vec.injEq] using beqList_iff l1 l2
  | .scalar _, .vec _ => by simp only [beq, Bool.false_eq_true, false_iff]; intro h; cases h
  | .vec _, .scalar _ => by simp only [beq, Bool.false_eq_true, false_iff]; intro h; cases h

theorem beqList_iff : ∀ l1 l2 : List Arr, beqList l1 l2 = true ↔ l1 = l2
  | [], [] => by simp [beqList]
  | a :: as, b :: bs => by
    simp only [beqList, Bool.and_eq_true, List.cons.injEq]
    exact and_congr (beq_iff a b) (beqList_iff as bs)
  | [], _ :: _ => by simp [beqList]
  | _ :: _, [] => by simp [beqList]

end

instance : DecidableEq Arr := fun a b =>
  decidable_of_iff (beq a b = true) (beq_iff a b)

instance : LawfulBEq Arr where
  eq_of_beq h := (beq_iff _ _).mp h
  rfl := (beq_iff _ _).mpr rfl

end Arr

/-- A feature column: one ndarray, given by its list of example-aligned
rows. -/
abbrev Col := List Arr

/-- The `RasaModelData.data` dict: insertion-ordered map from key to list of
columns. -/
abbrev Table := List (String × List Col)

/-- Total element count of a column (`ndarray.size`): for a uniform array
the product of the shape equals the sum of the rows' sizes. -/
def colSize (c : Col) : Nat := Arr.sizeList c

/-- `ndim` of a whole column (its rows contribute the trailing
dimensions). -/
def colNdim (c : Col) : Nat :=
  match c with
  | [] => 1
  | r :: _ => 1 + r.ndim

/-- `shape` of a whole column. -/
def colShape (c : Col) : List Nat :=
  c.length :: (match c with | [] => [] | r :: _ => r.shape)

/-- `shape[-1]` of a whole column. -/
def colLastDim (c : Col) : Nat := (colShape c).getLastD 0

/-- Leading-dimension lengths of every column across all keys, in iteration
order: `[v.shape[0] for values in self.data.values() for v in values]`. -/
def colLens (t : Table) : List Nat :=
  t.flatMap (fun kv => kv.2.map (fun c => c.length))

/-- Python dict assignment `d[key] = v`: replace in place if the key exists,
else append at the end. -/
def dictSet (t : Table) (key : String) (v : List Col) : Table :=
  if (t.lookup key).isSome then
    t.map (fun kv => if kv.1 = key then (key, v) else kv)
  else
    t ++ [(key, v)]

/-- The distinct `ValueError` sites of the source, named after the
specification's error taxonomy.  `indexErr` stands for the Python
`IndexError` raised when indexing position 0 of an empty sequence. -/
inductive DataErr where
  | duplicateKey
  | missingKey
  | inconsistentSize
  | indexErr
  | tooLarge
  | tooSmall
  | unsupportedShape
  | outOfFuel
deriving DecidableEq, Repr

/-- `RasaModelData.get_number_of_examples`: the shared leading dimension of
all columns; raises if two columns disagree.  On a table with no columns at
all, the Python `example_lengths[0]` raises `IndexError` (the `all(...)`
check passes vacuously first). -/
def get_number_of_examples (t : Table) : Except DataErr Nat :=
  match colLens t with
  | [] => .error .indexErr
  | n :: rest => if rest.all (fun m => m = n) then .ok n else .error .inconsistentSize

/-- `RasaModelData.add_features`: `if not features: return` fires before the
duplicate-key check; otherwise columns with zero total elements are dropped
and the key is only added when something is left. -/
def add_features (t : Table) (key : String) (features : List Col) :
    Except DataErr Table :=
  if features = [] then .ok t
  else if (t.lookup key).isSome then .error .duplicateKey
  else
    let kept := features.filter (fun c => 0 < colSize c)
    if kept = [] then .ok t else .ok (t ++ [(key, kept)])

/-- A derived per-example label id (`_create_label_ids` output): either the
numeric value itself (1-D / squeezed 2-D label arrays) or the canonical
joined string (multi-valued label rows). -/
inductive LabelId where
  | ival (v : Int)
  | sval (s : String)
deriving DecidableEq, Repr

/-- Total order used to model the sorted output of `np.unique`: a run of
label ids produced by `_create_label_ids` is homogeneous (all numeric or all
string), and within each kind this is numpy's sort order. -/
def LabelId.leb : LabelId → LabelId → Bool
  | .ival a, .ival b => a ≤ b
  | .ival _, .sval _ => true
  | .sval _, .ival _ => false
  | .sval a, .sval b => !(decide (b < a))

/-- `label_ids[:, 0]` applied to one row: its first entry's value. -/
def squeeze0 (x : Arr) : Int := (x.elems.headD (.scalar 0)).scalarVal

/-- One row of the 2-D join branch: `" ".join(row.astype("str"))`. -/
def joinRow (x : Arr) : String :=
  " ".intercalate (x.elems.map (fun y => toString y.scalarVal))

/-- One row of the 3-D join branch: `" ".join(row.astype("str"))` for `row`
drawn from `label_ids[:, :, 0]`. -/
def joinRow0 (x : Arr) : String :=
  " ".intercalate (x.elems.map (fun y => toString (y.elems.headD (.scalar 0)).scalarVal))

/-- `RasaModelData._create_label_ids`, branch for branch: 1-D arrays pass
through; `(N, 1)` arrays are squeezed; other 2-D arrays and `(N, S, 1)`
arrays map each row to a joined string; everything else raises. -/
def create_label_ids (label_ids : Col) : Except DataErr (List LabelId) :=
  if colNdim label_ids = 1 then
    .ok (label_ids.map (fun x => .ival x.scalarVal))
  else if colNdim label_ids = 2 ∧ colLastDim label_ids = 1 then
    .ok (label_ids.map (fun x => .ival (squeeze0 x)))
  else if colNdim label_ids = 2 then
    .ok (label_ids.map (fun x => .sval (joinRow x)))
  else if colNdim label_ids = 3 ∧ colLastDim label_ids = 1 then
    .ok (label_ids.map (fun x => .sval (joinRow0 x)))
  else .error .unsupportedShape

/-- `np.unique(label_ids, return_counts=True)`: the distinct label ids in
sorted order, each paired with its number of occurrences. -/
def uniqueCounts (labels : List LabelId) : List (LabelId × Nat) :=
  ((labels.dedup).insertionSort (fun a b => LabelId.leb a b = true)).map
    (fun u => (u, labels.count u))

/-- Boolean-mask indexing `v[mask]` on an example-aligned sequence. -/
def maskFilter {α : Type} (mask : List Bool) (c : List α) : List α :=
  ((mask.zip c).filter (fun p => p.1)).map (fun p => p.2)

/-- The mask `counts > 1`, where `counts[i]` is how often example `i`'s
label id occurs (`label_counts[label] for label in label_ids`). -/
def multiMask (labels : List LabelId) : List Bool :=
  labels.map (fun l => labels.count l > 1)

/-- The mask `counts == 1` selecting the singleton-class examples. -/
def soloMask (labels : List LabelId) : List Bool :=
  labels.map (fun l => labels.count l == 1)

/-- All columns of the table in iteration order
(`for values in self.data.values() for v in values`). -/
def flatCols (t : Table) : List Col := t.flatMap (fun kv => kv.2)

/-- Integer-array indexing `v[indices]` (the selection
`sklearn.model_selection.train_test_split` applies uniformly to every array
it is given). -/
def sel (c : Col) (idx : List Nat) : Col := idx.map (fun i => c.getD i (.scalar 0))

/-- `RasaModelData._combine_features`: `np.concatenate([f1, f2])` for dense
columns and `scipy.sparse.vstack` with zero-length operands skipped for
sparse ones — both are plain concatenation on the row-list model. -/
def combine_features (feature_1 feature_2 : Col) : Col := feature_1 ++ feature_2

/-- `RasaModelData._check_train_test_sizes` (the total/class counts are
computed by the caller): too large is checked first, with `>=`. -/
def check_train_test_sizes (number_of_test_examples : Int)
    (number_of_total_examples number_of_classes : Nat) : Except DataErr Unit :=
  if number_of_test_examples ≥ (number_of_total_examples : Int) - (number_of_classes : Int) then
    .error .tooLarge
  else if number_of_test_examples < (number_of_classes : Int) then
    .error .tooSmall
  else .ok ()

/-- Train half of `_convert_train_test_split`: the flattened column counter
`index` walks the table; train parts sit at even positions `index * 2` of
`output_values` and are concatenated with `solo_values[index]`. -/
def buildTrain (output_values solo_values : List Col) : Table → Nat → Table
  | [], _ => []
  | (k, cols) :: rest, index =>
    (k, (List.range cols.length).map (fun j =>
        combine_features (output_values.getD ((index + j) * 2) [])
          (solo_values.getD (index + j) []))) ::
      buildTrain output_values solo_values rest (index + cols.length)

/-- Validation half of `_convert_train_test_split`: validation parts sit at
odd positions `index * 2 + 1` of `output_values`. -/
def buildVal (output_values : List Col) : Table → Nat → Table
  | [], _ => []
  | (k, cols) :: rest, index =>
    (k, (List.range cols.length).map (fun j =>
        output_values.getD ((index + j) * 2 + 1) [])) ::
      buildVal output_values rest (index + cols.length)

/-- `RasaModelData._convert_train_test_split`. -/
def convert_train_test_split (t : Table) (output_values solo_values : List Col) :
    Table × Table :=
  (buildTrain output_values solo_values t 0, buildVal output_values t 0)

/-- The behaviour of `sklearn.model_selection.train_test_split` relevant
here, as an explicit parameter: from the row count, the integer `test_size`,
the `random_state` seed and the stratification labels it determines the
train and test index lists; `random_state` makes it a function of the seed.
Hypotheses on the claims state the library's contract (the two index lists
partition `range n` and the test list has exactly `test_size` entries). -/
abbrev TTS := Nat → Nat → Nat → List LabelId → List Nat × List Nat

/-- A concrete splitter satisfying the `train_test_split` contract, used to
instantiate witnesses: the last `test_size` positions are the test set. -/
def tts_tail : TTS := fun n test_size _ _ =>
  ((List.range (n - test_size)), (List.range test_size).map (fun i => i + (n - test_size)))

/-- `RasaModelData.split`: label-key check, label-id derivation, size
validation (via `get_number_of_examples`), singleton separation by the
`counts > 1` / `counts == 1` masks, stratified split of the multi-example
rows, and reassembly. -/
def split (tts : TTS) (t : Table) (number_of_test_examples : Int)
    (random_seed : Nat) (label_key : String) : Except DataErr (Table × Table) :=
  match t.lookup label_key with
  | none => .error .missingKey
  | some cols =>
    if cols.length > 1 then .error .missingKey
    else
      match cols with
      | [] => .error .indexErr  -- self.data[label_key][0] on an empty list
      | c :: _ =>
        match create_label_ids c with
        | .error e => .error e
        | .ok labels =>
          -- len(label_counts): number of distinct label ids
          let numClasses := (labels.dedup).length
          match get_number_of_examples t with
          | .error e => .error e
          | .ok numTotal =>
            match check_train_test_sizes number_of_test_examples numTotal numClasses with
            | .error e => .error e
            | .ok _ =>
              let mask := multiMask labels
              let multi_values := (flatCols t).map (fun v => maskFilter mask v)
              let solo_values := (flatCols t).map (fun v => maskFilter (soloMask labels) v)
              let strat := maskFilter mask labels
              let tr_te := tts strat.length number_of_test_examples.toNat random_seed strat
              let output_values := multi_values.flatMap (fun v => [sel v tr_te.1, sel v tr_te.2])
              .ok (convert_train_test_split t output_values solo_values)

/-- Modelled from the spec: `utils.train_utils.prepare_batch` is not under
src/.  Per §4.6 each produced batch is the row-range slice `data[start:end]`
of every column; the dense/sparse representation conversion it also performs
is the identity on row content and is omitted here. -/
def prepare_batch (t : Table) (start stop : Nat) : Table :=
  t.map (fun kv => (kv.1, kv.2.map (fun c => (c.drop start).take (stop - start))))

/-- The slicing loop of `RasaModelData._gen_batch` (strategy "sequence",
shuffle off: with shuffling or the "balanced" strategy the source first
reorders the table in place and then runs this same loop on the reordered
table). -/
def gen_batch (t : Table) (batch_size : Nat) : Except DataErr (List Table) :=
  match get_number_of_examples t with
  | .error e => .error e
  | .ok num_examples =>
    let num_batches := num_examples / batch_size +
      (if num_examples % batch_size > 0 then 1 else 0)
    .ok ((List.range num_batches).map (fun batch_num =>
      prepare_batch t (batch_num * batch_size) (batch_num * batch_size + batch_size)))

/-- The per-row mask `np.ones((x.shape[0], 1))` built by `add_mask`. -/
def maskRow (x : Arr) : Arr := .vec (List.replicate x.dim0 (.vec [.scalar 1]))

/-- `RasaModelData.add_mask`: returns unchanged when `self.data.get(from_key)`
is falsy (key absent, or present with an empty column list).  Otherwise the
source first assigns `self.data[key] = []` and only then iterates over
`self.data[from_key]` (relevant when `key = from_key`), appending the mask of
the first column with positive size and breaking. -/
def add_mask (t : Table) (key from_key : String) : Table :=
  match t.lookup from_key with
  | none => t
  | some [] => t
  | some _ =>
    let t1 := dictSet t key []
    match ((t1.lookup from_key).getD []).find? (fun c => 0 < colSize c) with
    | some c => dictSet t1 key [c.map maskRow]
    | none => t1

/-! ### The balancer (`RasaModelData.balance`)

The loop state carries, per class (indexed in the sorted order of
`np.unique`), the read cursor `data_idx`, the completed-pass counter
`num_data_cycles` and the `skipped` flag.  Instead of accumulating the
sliced arrays themselves, the state records each emission as a triple
`(class index, cursor, slice length)`; the final table applies these slices
to every column's per-class row groups, which is exactly what the source's
`new_data` accumulation followed by per-column concatenation computes. -/

structure BState where
  data_idx : List Nat
  num_data_cycles : List Nat
  skipped : List Bool
  emitted : List (Nat × Nat × Nat)
deriving DecidableEq, Repr

/-- `int(counts_label_ids[index] / num_examples * batch_size) + 1`, with the
float arithmetic replaced by the exact rational floor (IEEE rounding can
disagree only when `c / N * b` sits at a representation boundary; no claim
depends on such a boundary). -/
def index_batch_size (counts : List Nat) (num_examples batch_size i : Nat) : Nat :=
  counts.getD i 0 * batch_size / num_examples + 1

/-- One iteration of the inner `for index in indices_of_labels` body: skip a
rested class, otherwise clear its skip flag, record the slice
`v[data_idx : data_idx + index_batch_size]` for every column (the emission
triple), and advance the cursor, wrapping it (and counting the completed
pass) when it reaches the class size. -/
def visit (counts : List Nat) (num_examples batch_size : Nat) (s : BState)
    (i : Nat) : BState :=
  if s.num_data_cycles.getD i 0 > 0 && !(s.skipped.getD i false) then
    { s with skipped := s.skipped.set i true }
  else if s.data_idx.getD i 0 + index_batch_size counts num_examples batch_size i ≥
      counts.getD i 0 then
    { data_idx := s.data_idx.set i 0
      num_data_cycles := s.num_data_cycles.set i (s.num_data_cycles.getD i 0 + 1)
      skipped := s.skipped.set i false
      emitted := s.emitted ++
        [(i, s.data_idx.getD i 0, index_batch_size counts num_examples batch_size i)] }
  else
    { data_idx := s.data_idx.set i
        (s.data_idx.getD i 0 + index_batch_size counts num_examples batch_size i)
      num_data_cycles := s.num_data_cycles
      skipped := s.skipped.set i false
      emitted := s.emitted ++
        [(i, s.data_idx.getD i 0, index_batch_size counts num_examples batch_size i)] }

/-- One round over the visitation order.  The source checks
`if min(num_data_cycles) > 0: break` at the end of each non-skip iteration;
since a skip iteration leaves the counters unchanged, checking after every
iteration (as here) reaches the break at the same visit. -/
def run_round (counts : List Nat) (num_examples batch_size : Nat) :
    List Nat → BState → BState
  | [], s => s
  | i :: rest, s =>
    let s1 := visit counts num_examples batch_size s i
    if s1.num_data_cycles.contains 0 then
      run_round counts num_examples batch_size rest s1
    else s1

/-- The `while min(num_data_cycles) == 0` loop, with fuel standing in for
the missing termination argument (`none` = the loop is still running after
`fuel` rounds).  `perms r` is the visitation order of round `r`:
`np.random.permutation(num_label_ids)` under shuffling, `range(num_label_ids)`
otherwise — modelled as an explicit parameter since it is the only
randomness the loop consumes. -/
def balance_loop (counts : List Nat) (num_examples batch_size : Nat)
    (perms : Nat → List Nat) : Nat → Nat → BState → Option BState
  | 0, _, _ => none
  | fuel + 1, r, s =>
    if s.num_data_cycles.contains 0 then
      balance_loop counts num_examples batch_size perms fuel (r + 1)
        (run_round counts num_examples batch_size (perms r) s)
    else some s

/-- The initial loop state (`[0] * num_label_ids` etc.). -/
def initBState (num_label_ids : Nat) : BState :=
  ⟨List.replicate num_label_ids 0, List.replicate num_label_ids 0,
    List.replicate num_label_ids false, []⟩

/-- The boolean mask `label_ids == unique_label_ids[i]` used by
`_split_by_label_ids` / `_data_for_ids`. -/
def class_mask (labels : List LabelId) (u : LabelId) : List Bool :=
  labels.map (fun l => l == u)

/-- Class `i`'s row group of one column (`v[label_ids == unique_label_ids[i]]`). -/
def class_col (labels : List LabelId) (uniq : List LabelId) (i : Nat) (c : Col) : Col :=
  maskFilter (class_mask labels (uniq.getD i (.ival 0))) c

/-- Apply the recorded emissions to one column: slice `v[d : d + ibs]` of the
class's row group per emission, concatenated in emission order — the
column-level content of `new_data` after the final `np.concatenate`. -/
def emit_col (labels : List LabelId) (uniq : List LabelId)
    (emitted : List (Nat × Nat × Nat)) (c : Col) : Col :=
  emitted.flatMap (fun e => ((class_col labels uniq e.1 c).drop e.2.1).take e.2.2)

/-- `RasaModelData.balance`: label-key check, label-id derivation, grouping
by `np.unique` order, the round loop, and replacement of every column by its
reordered (and possibly repeating) concatenation. -/
def balance (perms : Nat → List Nat) (fuel : Nat) (t : Table)
    (batch_size : Nat) (label_key : String) : Except DataErr Table :=
  match t.lookup label_key with
  | none => .error .missingKey
  | some cols =>
    if cols.length > 1 then .error .missingKey
    else
      match cols with
      | [] => .error .indexErr  -- self.data[label_key][0] on an empty list
      | c :: _ =>
        match create_label_ids c with
        | .error e => .error e
        | .ok labels =>
          let uc := uniqueCounts labels
          let uniq := uc.map (fun p => p.1)
          let counts := uc.map (fun p => p.2)
          match get_number_of_examples t with
          | .error e => .error e
          | .ok num_examples =>
            match balance_loop counts num_examples batch_size perms fuel 0
                (initBState uniq.length) with
            | none => .error .outOfFuel
            | some s =>
              .ok (t.map (fun kv =>
                (kv.1, kv.2.map (fun v => emit_col labels uniq s.emitted v))))

instance : DecidableEq (Except DataErr Table) := fun x y =>
  match x, y with
  | .ok a, .ok b =>
    if h : a = b then .isTrue (by rw [h])
    else .isFalse (fun hc => by cases hc; exact h rfl)
  | .error a, .error b =>
    if h : a = b then .isTrue (by rw [h])
    else .isFalse (fun hc => by cases hc; exact h rfl)
  | .ok _, .error _ => .isFalse (fun hc => by cases hc)
  | .error _, .ok _ => .isFalse (fun hc => by cases hc)

/-- Row count of a successful balance result (used to state the balance
claims compactly): the shared leading dimension of the output table. -/
def resultRowCount (r : Except DataErr Table) : Option Nat :=
  match r with
  | .ok t =>
    match get_number_of_examples t with
    | .ok n => some n
    | .error _ => none
  | .error _ => none

/-- Lengths of the per-class state lists (they stay at the class count). -/
def BLen (n : Nat) (s : BState) : Prop :=
  s.data_idx.length = n ∧ s.num_data_cycles.length = n ∧ s.skipped.length = n

/-- The read cursors stay strictly below the class sizes. -/
def BIdx (counts : List Nat) (s : BState) : Prop :=
  ∀ i, i < counts.length → s.data_idx.getD i 0 < counts.getD i 0

/-- Termination measure of the round loop: the rows every not-yet-cycled
class still has to read. -/
def looplen (counts : List Nat) (s : BState) : Nat :=
  ((List.range counts.length).map (fun i =>
    if s.num_data_cycles.getD i 0 > 0 then 0
    else counts.getD i 0 - s.data_idx.getD i 0)).sum

/-- The rows class `i` has emitted so far, read off the emission log applied
to that class's row group `R`. -/
def class_out (R : Col) (i : Nat) (emitted : List (Nat × Nat × Nat)) : Col :=
  (emitted.filter (fun e => e.1 == i)).flatMap
    (fun e => (R.drop e.2.1).take e.2.2)

/-- The per-class loop invariant: what class `i` has emitted is exactly its
row group repeated once per completed pass, followed by the prefix up to the
current cursor. -/
def classInv (R : Col) (i : Nat) (s : BState) : Prop :=
  class_out R i s.emitted =
    (List.replicate (s.num_data_cycles.getD i 0) R).flatten ++
      R.take (s.data_idx.getD i 0)

/-! ### Concrete instances used by counterexamples and witnesses -/

/-- A one-key table whose key "a" is already taken. -/
def tdup : Table := [("a", [[Arr.scalar 1]])]

/-- A table whose key "src" holds one column with zero rows (so zero total
elements): present but with no non-empty data. -/
def tsrc0 : Table := [("src", [([] : Col)])]

/-- A table with a non-empty "src" column (one row of shape (1,)) and an
unrelated key "other". -/
def tmaskW : Table :=
  [("src", [[Arr.vec [Arr.scalar 5]]]), ("other", [[Arr.scalar 3]])]

/-- Labels 0,0,0,0,7: five examples, one multi-example class and one
singleton class. -/
def t5lbl : Table :=
  [("label", [[Arr.scalar 0, Arr.scalar 0, Arr.scalar 0, Arr.scalar 0,
               Arr.scalar 7]])]

/-- Labels 0,0,1,1: four examples in two classes. -/
def t4lbl : Table := [("label", [[Arr.scalar 0, Arr.scalar 0, Arr.scalar 1, Arr.scalar 1]])]

/-- Labels 0,0,0,1,1,1,1: seven examples in two classes. -/
def t7lbl : Table :=
  [("label", [[Arr.scalar 0, Arr.scalar 0, Arr.scalar 0,
               Arr.scalar 1, Arr.scalar 1, Arr.scalar 1, Arr.scalar 1]])]

/-- Thirteen examples in three classes of sizes 1, 2 and 10 (the synthetic
table named by the balance claim). -/
def t13 : Table :=
  [("label", [[Arr.scalar 0,
               Arr.scalar 1, Arr.scalar 1,
               Arr.scalar 2, Arr.scalar 2, Arr.scalar 2, Arr.scalar 2, Arr.scalar 2,
               Arr.scalar 2, Arr.scalar 2, Arr.scalar 2, Arr.scalar 2, Arr.scalar 2]])]

/-- The visitation orders of `balance` with `shuffle=False`:
`range(num_label_ids)` every round. -/
def rangePerms (num_label_ids : Nat) : Nat → List Nat := fun _ => List.range num_label_ids

/-! ### Helper lemmas -/

theorem lookup_map_replace_self (t : Table) (key : String) (v : List Col) :
    (t.map (fun kv => if kv.1 = key then (key, v) else kv)).lookup key =
      if (t.lookup key).isSome then some v else none := by
  induction t with
  | nil => simp
  | cons kv rest ih =>
    obtain ⟨k0, v0⟩ := kv
    by_cases h : k0 = key
    · subst h
      simp [List.lookup_cons]
    · simp only [List.map_cons, if_neg (by simpa using h)]
      rw [List.lookup_cons, List.lookup_cons]
      rw [beq_false_of_ne (fun e => h e.symm)]
      exact ih

theorem lookup_map_replace_ne (t : Table) (key k : String) (v : List Col)
    (hk : k ≠ key) :
    (t.map (fun kv => if kv.1 = key then (key, v) else kv)).lookup k =
      t.lookup k := by
  induction t with
  | nil => simp
  | cons kv rest ih =>
    obtain ⟨k0, v0⟩ := kv
    by_cases h : k0 = key
    · subst h
      simp only [List.map_cons]
      simp only [if_true]
      rw [List.lookup_cons, List.lookup_cons, beq_false_of_ne hk]
      exact ih
    · simp only [List.map_cons, if_neg (by simpa using h)]
      rw [List.lookup_cons, List.lookup_cons]
      cases hbeq : k == k0
      · exact ih
      · rfl

theorem lookup_append_right_ne (t : Table) (key k : String) (v : List Col)
    (hk : k ≠ key) :
    (t ++ [(key, v)]).lookup k = t.lookup k := by
  induction t with
  | nil => simp [List.lookup_cons, beq_false_of_ne hk]
  | cons kv rest ih =>
    obtain ⟨k0, v0⟩ := kv
    rw [List.cons_append, List.lookup_cons, List.lookup_cons]
    cases hbeq : k == k0
    · exact ih
    · rfl

theorem dictSet_lookup_self (t : Table) (key : String) (v : List Col) :
    (dictSet t key v).lookup key = some v := by
  unfold dictSet
  by_cases h : (t.lookup key).isSome
  · simp [h, lookup_map_replace_self]
  · rw [if_neg h]
    induction t with
    | nil => simp [List.lookup_cons]
    | cons kv rest ih =>
      obtain ⟨k0, v0⟩ := kv
      by_cases h2 : k0 = key
      · exfalso
        apply h
        subst h2
        simp [List.lookup_cons]
      · rw [List.lookup_cons] at h
        rw [List.cons_append, List.lookup_cons]
        rw [beq_false_of_ne (fun e => h2 e.symm)] at h ⊢
        exact ih h

theorem dictSet_lookup_ne (t : Table) (key k : String) (v : List Col)
    (hk : k ≠ key) : (dictSet t key v).lookup k = t.lookup k := by
  unfold dictSet
  by_cases h : (t.lookup key).isSome
  · simp [h, lookup_map_replace_ne t key k v hk]
  · simp [h, lookup_append_right_ne t key k v hk]

/-- Reduction of `split` once the label key, the derived label ids and the
example count are known: the result is decided by `_check_train_test_sizes`,
and on success is the reassembled pair. -/
theorem split_reduce (tts : TTS) (t : Table) (n : Int) (seed : Nat)
    (key : String) (c : Col) (labels : List LabelId) (N : Nat)
    (hk : t.lookup key = some [c])
    (hl : create_label_ids c = .ok labels)
    (hN : get_number_of_examples t = .ok N) :
    split tts t n seed key =
      match check_train_test_sizes n N labels.dedup.length with
      | .error e => .error e
      | .ok _ =>
        .ok (convert_train_test_split t
          (((flatCols t).map (fun v => maskFilter (multiMask labels) v)).flatMap
            (fun v =>
              [sel v (tts (maskFilter (multiMask labels) labels).length n.toNat seed
                  (maskFilter (multiMask labels) labels)).1,
               sel v (tts (maskFilter (multiMask labels) labels).length n.toNat seed
                  (maskFilter (multiMask labels) labels)).2]))
          ((flatCols t).map (fun v => maskFilter (soloMask labels) v))) := by
  simp only [split, hk, hl, hN]
  rw [if_neg (by simp : ¬([c].length > 1))]

/-! ### C4: get_number_of_examples -/

/-- C4, counterexample.  On the empty table no two columns disagree on the
leading dimension, so the claim requires `get_number_of_examples()` to
return the shared leading dimension; instead the source raises `IndexError`
at `example_lengths[0]` (the `all(...)` check passes vacuously first).  So
the claim as stated is false. -/
theorem get_number_of_examples_empty_counterexample :
    get_number_of_examples ([] : Table) = .error .indexErr ∧
      colLens ([] : Table) = [] :=
  ⟨rfl, rfl⟩

/-- C4 (amended): for every table with at least one column,
`get_number_of_examples()` raises InconsistentSizeError iff some two columns
disagree on their leading-dimension row count, and otherwise returns the
shared leading dimension.  (On a table with no columns it raises an index
error instead of returning.) -/
theorem get_number_of_examples_spec (t : Table) (h : colLens t ≠ []) :
    (get_number_of_examples t = .error .inconsistentSize ↔
      ∃ a ∈ colLens t, ∃ b ∈ colLens t, a ≠ b) ∧
    ((∀ a ∈ colLens t, ∀ b ∈ colLens t, a = b) →
      get_number_of_examples t = .ok ((colLens t).headD 0)) := by
  unfold get_number_of_examples
  rcases hcl : colLens t with _ | ⟨n, rest⟩
  · exact absurd hcl h
  · simp only [hcl]
    constructor
    · by_cases hall : (rest.all fun m => decide (m = n)) = true
      · rw [if_pos hall]
        simp only [List.all_eq_true, decide_eq_true_eq] at hall
        constructor
        · intro hcontra
          exact absurd hcontra (by simp)
        · rintro ⟨a, ha, b, hb, hne⟩
          have hv : ∀ x ∈ n :: rest, x = n := by
            intro x hx
            rcases List.mem_cons.mp hx with hx0 | hx1
            · exact hx0
            · exact hall x hx1
          exact (hne ((hv a ha).trans (hv b hb).symm)).elim
      · rw [if_neg hall]
        simp only [List.all_eq_true, decide_eq_true_eq] at hall
        push_neg at hall
        obtain ⟨m, hm, hmn⟩ := hall
        constructor
        · intro _
          exact ⟨n, List.mem_cons_self n rest, m, List.mem_cons_of_mem n hm,
            fun e => hmn e.symm⟩
        · intro _
          rfl
    · intro hAll
      have hall : (rest.all fun m => decide (m = n)) = true := by
        simp only [List.all_eq_true, decide_eq_true_eq]
        intro m hm
        exact hAll m (List.mem_cons_of_mem n hm) n (List.mem_cons_self n rest)
      rw [if_pos hall]
      rfl

/-- Witness for `get_number_of_examples_spec`: a table with two agreeing
one-row columns returns 1. -/
theorem get_number_of_examples_spec_witness :
    get_number_of_examples [("a", [[Arr.scalar 1], [Arr.scalar 2]])] = .ok 1 := by
  have h := get_number_of_examples_spec [("a", [[Arr.scalar 1], [Arr.scalar 2]])]
    (by decide)
  exact h.2 (by decide)

/-! ### C7: add_features on an existing key -/

/-- C7, counterexample.  The claim says re-adding an existing key fails with
DuplicateKeyError regardless of the columns argument, but
`if not features: return` fires first: with an empty columns list the call
returns silently even though key "a" already exists. -/
theorem add_features_empty_list_counterexample :
    add_features tdup "a" [] = .ok tdup ∧ (tdup.lookup "a").isSome = true :=
  ⟨rfl, rfl⟩

/-- C7 (amended): for every table, every key already present and every
NON-EMPTY columns argument, `add_features` fails with DuplicateKeyError (and,
being checked before any mutation, leaves the table unchanged — in this
functional embedding an `.error` result carries no table at all); with an
empty columns list it instead returns silently with the table unchanged. -/
theorem add_features_duplicate_key (t : Table) (key : String)
    (features : List Col) (hkey : (t.lookup key).isSome = true) :
    (features ≠ [] → add_features t key features = .error .duplicateKey) ∧
      (features = [] → add_features t key features = .ok t) := by
  constructor
  · intro hf
    unfold add_features
    rw [if_neg hf, if_pos hkey]
  · intro he
    subst he
    rfl

/-- Witness for `add_features_duplicate_key`. -/
theorem add_features_duplicate_key_witness :
    add_features tdup "a" [[Arr.scalar 2]] = .error .duplicateKey :=
  (add_features_duplicate_key tdup "a" [[Arr.scalar 2]] rfl).1 (by decide)

/-! ### C9: add_mask frame behaviour -/

/-- C9, counterexample.  With source key "src" present but holding no
non-empty data (one column with zero total elements), the claim requires
`add_mask` to leave the table completely unchanged; the source instead
executes `self.data[key] = []`, finds no column to mask, and so leaves the
table with the new key mapped to an empty list — a changed table. -/
theorem add_mask_all_empty_counterexample :
    add_mask tsrc0 "mask" "src" ≠ tsrc0 ∧
      (tsrc0.lookup "src").isSome = true ∧
      ((tsrc0.lookup "src").getD []).all (fun c => colSize c = 0) = true := by
  exact ⟨by decide, rfl, rfl⟩

/-- C9 (amended): `add_mask(key, source_key)` leaves the table unchanged
when the source key is absent or maps to an empty column list.  When the
source key holds a non-empty column list, every key other than `key` is left
unchanged, and `key` is set to the mask of the first column with positive
total size — or to an empty column list when no such column exists (so the
table does change in that case, contrary to the original claim). -/
theorem add_mask_spec (t : Table) (key from_key : String) :
    (t.lookup from_key = none → add_mask t key from_key = t) ∧
    (t.lookup from_key = some [] → add_mask t key from_key = t) ∧
    (∀ cols, t.lookup from_key = some cols → cols ≠ [] →
      (∀ k, k ≠ key → (add_mask t key from_key).lookup k = t.lookup k) ∧
      (key ≠ from_key →
        (add_mask t key from_key).lookup key =
          some (match cols.find? (fun c => 0 < colSize c) with
                | some c => [c.map maskRow]
                | none => []))) := by
  refine ⟨?_, ?_, ?_⟩
  · intro h
    unfold add_mask
    rw [h]
  · intro h
    unfold add_mask
    rw [h]
  · intro cols hcols hne
    match cols, hne with
    | c0 :: rest, _ =>
      have hval : add_mask t key from_key =
          (match (((dictSet t key []).lookup from_key).getD []).find?
              (fun c => decide (0 < colSize c)) with
            | some c => dictSet (dictSet t key []) key [c.map maskRow]
            | none => dictSet t key []) := by
        unfold add_mask
        rw [hcols]
      by_cases hkf : key = from_key
      · subst hkf
        rw [dictSet_lookup_self t key []] at hval
        simp only [Option.getD_some, List.find?_nil] at hval
        rw [hval]
        constructor
        · intro k hk
          exact dictSet_lookup_ne t key k [] hk
        · intro habs
          exact absurd rfl habs
      · rw [dictSet_lookup_ne t key from_key [] (fun e => hkf e.symm), hcols] at hval
        simp only [Option.getD_some] at hval
        cases hf : (c0 :: rest).find? (fun c => decide (0 < colSize c)) with
        | some c =>
          rw [hf] at hval
          rw [hval]
          constructor
          · intro k hk
            rw [dictSet_lookup_ne _ key k _ hk, dictSet_lookup_ne t key k [] hk]
          · intro _
            rw [dictSet_lookup_self]
        | none =>
          rw [hf] at hval
          rw [hval]
          constructor
          · intro k hk
            exact dictSet_lookup_ne t key k [] hk
          · intro _
            rw [dictSet_lookup_self]

/-- Witness for `add_mask_spec`: the "mask" key receives the
ones-mask of the first non-empty "src" column and the unrelated key "other"
is untouched. -/
theorem add_mask_spec_witness :
    (add_mask tmaskW "mask" "src").lookup "mask" =
        some [[Arr.vec [Arr.vec [Arr.scalar 1]]]] ∧
      (add_mask tmaskW "mask" "src").lookup "other" = tmaskW.lookup "other" := by
  have h := (add_mask_spec tmaskW "mask" "src").2.2 [[Arr.vec [Arr.scalar 5]]]
    rfl (by decide)
  refine ⟨?_, h.1 "other" (by decide)⟩
  rw [h.2 (by decide)]
  rfl

/-! ### C3: size validation of split -/

/-- C3, counterexample.  Four examples in two classes, requesting `n = 2`
held-out examples: `N - n = 2` is NOT smaller than `C = 2`, so the claim
says no size error may be raised; but `_check_train_test_sizes` tests
`number_of_test_examples >= number_of_total_examples - len(label_counts)`
(with `>=`, not `>`), i.e. `2 >= 4 - 2`, and raises TooManyExamplesError. -/
theorem split_size_check_counterexample :
    split tts_tail t4lbl 2 0 "label" = .error .tooLarge ∧
      ¬((4 - 2 : Int) < 2) :=
  ⟨rfl, by decide⟩

/-- C3 (amended): for a table with `N` total examples and `C` distinct
classes, `split(n, seed, key)` fails with TooManyExamplesError exactly when
`n ≥ N - C` (equivalently `N - n ≤ C`; that check fires first), fails with
TooFewExamplesError exactly when `n < C` and the TooMany check did not fire,
and for all other `n` raises no size error. -/
theorem split_size_validation (tts : TTS) (t : Table) (n : Int) (seed : Nat)
    (key : String) (c : Col) (labels : List LabelId) (N : Nat)
    (hk : t.lookup key = some [c])
    (hl : create_label_ids c = .ok labels)
    (hN : get_number_of_examples t = .ok N) :
    (split tts t n seed key = .error .tooLarge ↔
      (N : Int) - (labels.dedup.length : Int) ≤ n) ∧
    (split tts t n seed key = .error .tooSmall ↔
      (n < (labels.dedup.length : Int) ∧
        n < (N : Int) - (labels.dedup.length : Int))) ∧
    ((labels.dedup.length : Int) ≤ n →
      n < (N : Int) - (labels.dedup.length : Int) →
      ∃ r, split tts t n seed key = .ok r) := by
  have hred := split_reduce tts t n seed key c labels N hk hl hN
  by_cases h1 : (N : Int) - (labels.dedup.length : Int) ≤ n
  · have hcheck : check_train_test_sizes n N labels.dedup.length = .error .tooLarge := by
      unfold check_train_test_sizes
      rw [if_pos (by omega)]
    rw [hcheck] at hred
    refine ⟨by simp [hred, h1], ?_, ?_⟩
    · rw [hred]
      constructor
      · intro he
        cases he
      · rintro ⟨-, hb⟩
        omega
    · intro ha hb
      omega
  · by_cases h2 : n < (labels.dedup.length : Int)
    · have hcheck : check_train_test_sizes n N labels.dedup.length = .error .tooSmall := by
        unfold check_train_test_sizes
        rw [if_neg (by omega), if_pos (by omega)]
      rw [hcheck] at hred
      refine ⟨?_, by simp [hred]; omega, ?_⟩
      · rw [hred]
        constructor
        · intro he
          cases he
        · intro hb
          omega
      · intro ha hb
        omega
    · have hcheck : check_train_test_sizes n N labels.dedup.length = .ok () := by
        unfold check_train_test_sizes
        rw [if_neg (by omega), if_neg (by omega)]
      rw [hcheck] at hred
      refine ⟨?_, ?_, ?_⟩
      · rw [hred]
        constructor
        · intro he
          cases he
        · intro hb
          omega
      · rw [hred]
        constructor
        · intro he
          cases he
        · rintro ⟨ha, -⟩
          omega
      · intro _ _
        exact ⟨_, hred⟩

/-- Witness for `split_size_validation`: seven examples in two classes,
`n = 3` is in the valid range, and indeed the split returns a result. -/
theorem split_size_validation_witness :
    ∃ r, split tts_tail t7lbl 3 0 "label" = .ok r := by
  have h := split_size_validation tts_tail t7lbl 3 0 "label"
    [Arr.scalar 0, Arr.scalar 0, Arr.scalar 0,
     Arr.scalar 1, Arr.scalar 1, Arr.scalar 1, Arr.scalar 1]
    [.ival 0, .ival 0, .ival 0, .ival 1, .ival 1, .ival 1, .ival 1] 7
    rfl rfl rfl
  exact h.2.2 (by decide) (by decide)

/-! ### C5: label-id derivation -/

theorem ndim_zero_scalar (y : Arr) (h : y.ndim = 0) : ∃ v : Int, y = .scalar v := by
  cases y with
  | scalar v => exact ⟨v, rfl⟩
  | vec l =>
    exfalso
    cases l with
    | nil => simp [Arr.ndim] at h
    | cons x xs => simp [Arr.ndim] at h

/-- C5: `derive_label_ids` (`_create_label_ids`) is a pure function mapping
a 1-D column to the values themselves; a 2-D column with trailing dimension
1 to the squeezed values; a 2-D multi-valued column (trailing dimension
≠ 1) and a 3-D column of single-element entries (shape (N, S, 1), i.e.
multi-valued rows) to the canonical string joining the stringified
components of each row; and raising UnsupportedShapeError for every shape
outside these four handled classes (0-D, ndim ≥ 4, or 3-D with trailing
dimension ≠ 1).  The shape classes are characterised structurally on the
rows. -/
theorem create_label_ids_shape_spec (c : Col) :
    ((∀ r ∈ c, r.ndim = 0) →
      create_label_ids c = .ok (c.map (fun x => .ival x.scalarVal))) ∧
    (c ≠ [] → (∀ r ∈ c, ∃ v : Int, r = .vec [.scalar v]) →
      create_label_ids c = .ok (c.map (fun x => .ival (squeeze0 x)))) ∧
    (∀ w, w ≠ 1 → c ≠ [] →
      (∀ r ∈ c, ∃ l, r = Arr.vec l ∧ l.length = w ∧ ∀ y ∈ l, y.ndim = 0) →
      create_label_ids c = .ok (c.map (fun x => .sval (joinRow x)))) ∧
    (∀ w, 0 < w → c ≠ [] →
      (∀ r ∈ c, ∃ l, r = Arr.vec l ∧ l.length = w ∧
        ∀ y ∈ l, ∃ v : Int, y = .vec [.scalar v]) →
      create_label_ids c = .ok (c.map (fun x => .sval (joinRow0 x)))) ∧
    ((colNdim c = 0 ∨ 4 ≤ colNdim c ∨ (colNdim c = 3 ∧ colLastDim c ≠ 1)) →
      create_label_ids c = .error .unsupportedShape) := by
  refine ⟨?_, ?_, ?_, ?_, ?_⟩
  · intro h
    cases c with
    | nil => rfl
    | cons r rest =>
      have hnd : colNdim (r :: rest) = 1 := by
        simp [colNdim, h r (List.mem_cons_self r rest)]
      unfold create_label_ids
      rw [if_pos hnd]
  · intro hne h
    cases c with
    | nil => exact absurd rfl hne
    | cons r rest =>
      obtain ⟨v, hv⟩ := h r (List.mem_cons_self r rest)
      have hnd : colNdim (r :: rest) = 2 := by
        subst hv
        simp [colNdim, Arr.ndim]
      have hld : colLastDim (r :: rest) = 1 := by
        subst hv
        simp [colLastDim, colShape, Arr.shape]
      unfold create_label_ids
      rw [if_neg (by omega), if_pos ⟨hnd, hld⟩]
  · intro w hw hne h
    cases c with
    | nil => exact absurd rfl hne
    | cons r rest =>
      obtain ⟨l, hl, hlen, hsc⟩ := h r (List.mem_cons_self r rest)
      have hnd : colNdim (r :: rest) = 2 := by
        subst hl
        cases l with
        | nil => simp [colNdim, Arr.ndim]
        | cons y ys =>
          have hy := hsc y (List.mem_cons_self y ys)
          simp [colNdim, Arr.ndim, hy]
      have hld : colLastDim (r :: rest) = w := by
        subst hl
        cases l with
        | nil =>
          simp only [List.length_nil] at hlen
          simp [colLastDim, colShape, Arr.shape, ← hlen]
        | cons y ys =>
          obtain ⟨v, hv⟩ := ndim_zero_scalar y (hsc y (List.mem_cons_self y ys))
          subst hv
          simp only [List.length_cons] at hlen
          simp [colLastDim, colShape, Arr.shape, ← hlen]
      unfold create_label_ids
      rw [if_neg (by omega), if_neg (by rw [hld]; exact fun hc => hw hc.2),
        if_pos hnd]
  · intro w hw hne h
    cases c with
    | nil => exact absurd rfl hne
    | cons r rest =>
      obtain ⟨l, hl, hlen, hin⟩ := h r (List.mem_cons_self r rest)
      cases l with
      | nil => simp only [List.length_nil] at hlen; omega
      | cons y ys =>
        obtain ⟨v, hv⟩ := hin y (List.mem_cons_self y ys)
        have hnd : colNdim (r :: rest) = 3 := by
          subst hl
          subst hv
          simp [colNdim, Arr.ndim]
        have hld : colLastDim (r :: rest) = 1 := by
          subst hl
          subst hv
          simp [colLastDim, colShape, Arr.shape]
        unfold create_label_ids
        rw [if_neg (by omega), if_neg (by exact fun hc => by omega),
          if_neg (by omega), if_pos ⟨hnd, hld⟩]
  · intro h
    unfold create_label_ids
    rcases h with h0 | h4 | ⟨h3, hl3⟩
    · rw [if_neg (by omega), if_neg (fun hc => by omega),
        if_neg (by omega), if_neg (fun hc => by omega)]
    · rw [if_neg (by omega), if_neg (fun hc => by omega),
        if_neg (by omega), if_neg (fun hc => by omega)]
    · rw [if_neg (by omega), if_neg (fun hc => by omega),
        if_neg (by omega), if_neg (fun hc => hl3 hc.2)]

/-- Witness for `create_label_ids_shape_spec`: a single (1, 2)-shaped label
column joins its row to the canonical string "1 2". -/
theorem create_label_ids_shape_spec_witness :
    create_label_ids [Arr.vec [Arr.scalar 1, Arr.scalar 2]] =
      .ok [.sval "1 2"] := by
  have h := (create_label_ids_shape_spec [Arr.vec [Arr.scalar 1, Arr.scalar 2]]).2.2.1
    2 (by decide) (by decide)
    (by
      intro r hr
      rw [List.mem_singleton] at hr
      subst hr
      refine ⟨[Arr.scalar 1, Arr.scalar 2], rfl, rfl, ?_⟩
      intro y hy
      rcases List.mem_cons.mp hy with rfl | hy2
      · rfl
      · rcases List.mem_cons.mp hy2 with rfl | h3
        · rfl
        · cases h3)
  rw [h]
  rfl

/-! ### C8: determinism of split -/

/-- C8: `split(n, seed, key)` run twice on equal tables with the same `n`,
seed and label key produces identical (train, test) partitions.  In this
embedding `train_test_split` with a fixed `random_state` is a function of
the seed (the `TTS` parameter) — exactly the reproducibility contract the
source relies on — and `split` consumes no other randomness, so the result
is determined by the table and the arguments. -/
theorem split_deterministic (tts : TTS) (t1 t2 : Table) (n : Int)
    (seed : Nat) (key : String) (h : t1 = t2) :
    split tts t1 n seed key = split tts t2 n seed key := by
  rw [h]

/-- Witness for `split_deterministic`. -/
theorem split_deterministic_witness :
    split tts_tail t7lbl 3 0 "label" = split tts_tail t7lbl 3 0 "label" :=
  split_deterministic tts_tail t7lbl t7lbl 3 0 "label" rfl

/-! ### C6: the batch generator -/

theorem flatCols_mapCols (t : Table) (g : Col → Col) :
    flatCols (t.map (fun kv => (kv.1, kv.2.map g))) = (flatCols t).map g := by
  induction t with
  | nil => rfl
  | cons kv rest ih =>
    simp only [flatCols, List.map_cons, List.flatMap_cons] at *
    rw [ih, List.map_append]

theorem colLens_eq_map_length (t : Table) :
    colLens t = (flatCols t).map List.length := by
  induction t with
  | nil => rfl
  | cons kv rest ih =>
    simp only [colLens, flatCols, List.flatMap_cons, List.map_append] at *
    rw [ih]

theorem cols_length_of_ok (t : Table) (N : Nat)
    (hN : get_number_of_examples t = .ok N) :
    ∀ c ∈ flatCols t, c.length = N := by
  intro c hc
  have hmem : c.length ∈ colLens t := by
    rw [colLens_eq_map_length]
    exact List.mem_map_of_mem List.length hc
  unfold get_number_of_examples at hN
  rcases hcl : colLens t with _ | ⟨n, rest⟩
  · rw [hcl] at hN
    cases hN
  · rw [hcl] at hN hmem
    have hN2 : (if (rest.all fun m => decide (m = n)) = true then (Except.ok n : Except DataErr Nat)
        else Except.error DataErr.inconsistentSize) = .ok N := hN
    by_cases hall : (rest.all fun m => decide (m = n)) = true
    · rw [if_pos hall] at hN2
      have hNn : n = N := by
        cases hN2
        rfl
      simp only [List.all_eq_true, decide_eq_true_eq] at hall
      rcases List.mem_cons.mp hmem with h | h
      · rw [h, hNn]
      · rw [hall _ h, hNn]
    · rw [if_neg hall] at hN2
      cases hN2

theorem prepare_batch_keys (t : Table) (a b : Nat) :
    (prepare_batch t a b).map Prod.fst = t.map Prod.fst := by
  unfold prepare_batch
  rw [List.map_map]
  rfl

theorem range_map_getD {α : Type} (n i : Nat) (f : Nat → α) (d : α)
    (h : i < n) :
    ((List.range n).map f).getD i d = f i := by
  rw [List.getD_eq_getElem _ d (by simpa using h)]
  simp

theorem getD_map_lt {α β : Type} (l : List α) (f : α → β) (i : Nat)
    (d : β) (d0 : α) (h : i < l.length) :
    (l.map f).getD i d = f (l.getD i d0) := by
  rw [List.getD_eq_getElem _ d (by simpa using h), List.getD_eq_getElem _ d0 h]
  simp

/-- `ceil(N / bs)` as computed by the source:
`N // bs + int(N % bs > 0)`. -/
theorem numBatches_eq_ceil (N bs : Nat) (hbs : 0 < bs) :
    N / bs + (if N % bs > 0 then 1 else 0) = (N + bs - 1) / bs := by
  rcases Nat.eq_zero_or_pos N with h0 | hpos
  · subst h0
    have h2 : (0 + bs - 1) / bs = 0 := Nat.div_eq_of_lt (by omega)
    rw [h2, Nat.zero_div, Nat.zero_mod]
    simp
  · have hqr := Nat.div_add_mod N bs
    have hr : N % bs < bs := Nat.mod_lt _ hbs
    by_cases hz : N % bs = 0
    · rw [if_neg (by omega)]
      have h1 : N + bs - 1 = (bs - 1) + bs * (N / bs) := by omega
      rw [h1, Nat.add_mul_div_left _ _ hbs,
        Nat.div_eq_of_lt (show bs - 1 < bs by omega)]
      simp
    · rw [if_pos (by omega)]
      have h1 : N + bs - 1 = (N % bs - 1) + bs * (N / bs + 1) := by
        have hms : bs * (N / bs + 1) = bs * (N / bs) + bs := Nat.mul_succ bs (N / bs)
        omega
      rw [h1, Nat.add_mul_div_left _ _ hbs,
        Nat.div_eq_of_lt (show N % bs - 1 < bs by omega)]
      simp

theorem numBatches_add (bs m : Nat) (hbs : 0 < bs) :
    (m + bs) / bs + (if (m + bs) % bs > 0 then 1 else 0)
      = (m / bs + (if m % bs > 0 then 1 else 0)) + 1 := by
  rw [Nat.add_div_right _ hbs, Nat.add_mod_right]
  omega

/-- Concatenating the `bs`-sized chunks of a list restores the list. -/
theorem chunks_flatten {α : Type} (bs : Nat) (hbs : 0 < bs) :
    ∀ (fuel : Nat) (c : List α), c.length ≤ fuel →
      ((List.range (c.length / bs + (if c.length % bs > 0 then 1 else 0))).map
        (fun i => (c.drop (i * bs)).take bs)).flatten = c := by
  intro fuel
  induction fuel with
  | zero =>
    intro c hc
    have hc0 : c = [] := List.length_eq_zero.mp (Nat.le_zero.mp hc)
    subst hc0
    simp
  | succ f ih =>
    intro c hc
    by_cases h0 : c.length = 0
    · have hc0 : c = [] := List.length_eq_zero.mp h0
      subst hc0
      simp
    · by_cases hle : c.length ≤ bs
      · have hnb : c.length / bs + (if c.length % bs > 0 then 1 else 0) = 1 := by
          rcases Nat.lt_or_ge c.length bs with hlt | hge
          · rw [Nat.div_eq_of_lt hlt, Nat.mod_eq_of_lt hlt, if_pos (by omega)]
          · have hbseq : c.length = bs := le_antisymm hle hge
            rw [hbseq, Nat.div_self hbs, Nat.mod_self, if_neg (by decide)]
        have hr1 : List.range 1 = [0] := rfl
        rw [hnb, hr1]
        simp [List.take_of_length_le hle]
      · push_neg at hle
        have hnb : c.length / bs + (if c.length % bs > 0 then 1 else 0)
            = (((c.length - bs)) / bs +
                (if (c.length - bs) % bs > 0 then 1 else 0)) + 1 := by
          have h1 : c.length = (c.length - bs) + bs := by omega
          conv_lhs => rw [h1]
          exact numBatches_add bs _ hbs
        rw [hnb, List.range_succ_eq_map, List.map_cons, List.map_map,
          List.flatten_cons]
        have hmap :
            (List.range ((c.length - bs) / bs +
                (if (c.length - bs) % bs > 0 then 1 else 0))).map
              ((fun i => (c.drop (i * bs)).take bs) ∘ Nat.succ)
            = (List.range ((c.drop bs).length / bs +
                (if (c.drop bs).length % bs > 0 then 1 else 0))).map
              (fun i => ((c.drop bs).drop (i * bs)).take bs) := by
          rw [List.length_drop]
          apply List.map_congr_left
          intro i _
          simp only [Function.comp_apply]
          rw [List.drop_drop]
          congr 2
          rw [Nat.succ_mul]
          omega
        rw [hmap, ih (c.drop bs) (by rw [List.length_drop]; omega)]
        simp

theorem mem_colLens_batch (t : Table) (a b m : Nat)
    (hm : m ∈ colLens (prepare_batch t a b)) :
    ∃ c ∈ flatCols t, m = ((c.drop a).take (b - a)).length := by
  rw [colLens_eq_map_length] at hm
  have hfc : flatCols (prepare_batch t a b) =
      (flatCols t).map (fun c => (c.drop a).take (b - a)) :=
    flatCols_mapCols t _
  rw [hfc, List.map_map] at hm
  obtain ⟨c, hc, hEq⟩ := List.mem_map.mp hm
  exact ⟨c, hc, hEq.symm⟩

theorem min_bs_full (bs N i : Nat) (hbs : 0 < bs) (hi : i + 1 ≤ N / bs) :
    min bs (N - i * bs) = bs := by
  have hqr := Nat.div_add_mod N bs
  have h1 : bs * (i + 1) ≤ bs * (N / bs) := Nat.mul_le_mul_left bs hi
  have h2 : bs * (i + 1) = bs * i + bs := Nat.mul_succ bs i
  have h3 : i * bs = bs * i := Nat.mul_comm i bs
  omega

theorem min_bs_last (bs N : Nat) (hbs : 0 < bs) (hpos : 0 < N) :
    min bs (N - ((N / bs + (if N % bs > 0 then 1 else 0)) - 1) * bs)
      = if N % bs = 0 then bs else N % bs := by
  obtain ⟨q, hq⟩ : ∃ q, N / bs = q := ⟨_, rfl⟩
  obtain ⟨r, hrr⟩ : ∃ r, N % bs = r := ⟨_, rfl⟩
  have hqr : bs * q + r = N := by
    rw [← hq, ← hrr]
    exact Nat.div_add_mod N bs
  have hr : r < bs := by
    rw [← hrr]
    exact Nat.mod_lt _ hbs
  rw [hq, hrr]
  by_cases hz : r = 0
  · rw [if_pos hz, if_neg (show ¬(r > 0) by omega)]
    have hq1 : 1 ≤ q := by
      rcases Nat.eq_zero_or_pos q with h | h
      · subst h
        rw [Nat.mul_zero] at hqr
        omega
      · exact h
    obtain ⟨qq, hqq⟩ : ∃ qq, q = qq + 1 := ⟨q - 1, by omega⟩
    subst hqq
    have hidx : qq + 1 + 0 - 1 = qq := by omega
    rw [hidx]
    have hms : bs * (qq + 1) = bs * qq + bs := Nat.mul_succ bs qq
    have h3 : qq * bs = bs * qq := Nat.mul_comm qq bs
    omega
  · rw [if_neg hz, if_pos (show r > 0 by omega)]
    have hidx : q + 1 - 1 = q := by omega
    rw [hidx]
    have h3 : q * bs = bs * q := Nat.mul_comm q bs
    omega

/-- C6: the batch generator, run on a table of `N` examples with batch size
`batch_size > 0`, yields exactly `ceil(N / batch_size)` batches; every batch
but the last slices `batch_size` rows out of every column, the last slices
`N mod batch_size` rows (or `batch_size` when the remainder is zero); every
batch preserves the key structure; and concatenating the batches'
corresponding column slices reconstructs every column of the table. -/
theorem gen_batch_spec (t : Table) (bs N : Nat) (batches : List Table)
    (hbs : 0 < bs) (hN : get_number_of_examples t = .ok N)
    (hg : gen_batch t bs = .ok batches) :
    batches.length = (N + bs - 1) / bs ∧
    (∀ i, i + 1 < batches.length →
      ∀ m ∈ colLens (batches.getD i []), m = bs) ∧
    (0 < N →
      ∀ m ∈ colLens (batches.getD (batches.length - 1) []),
        m = if N % bs = 0 then bs else N % bs) ∧
    (∀ b ∈ batches, b.map Prod.fst = t.map Prod.fst) ∧
    (∀ j, j < (flatCols t).length →
      (batches.map (fun b => (flatCols b).getD j [])).flatten =
        (flatCols t).getD j []) := by
  have hcols := cols_length_of_ok t N hN
  have hb : batches = (List.range (N / bs + (if N % bs > 0 then 1 else 0))).map
      (fun i => prepare_batch t (i * bs) (i * bs + bs)) := by
    simp only [gen_batch, hN] at hg
    injection hg with h
    exact h.symm
  have hlen : batches.length = N / bs + (if N % bs > 0 then 1 else 0) := by
    rw [hb, List.length_map, List.length_range]
  refine ⟨?_, ?_, ?_, ?_, ?_⟩
  · rw [hlen]
    exact numBatches_eq_ceil N bs hbs
  · intro i hi m hm
    rw [hlen] at hi
    have hgetD : batches.getD i [] = prepare_batch t (i * bs) (i * bs + bs) := by
      rw [hb]
      exact range_map_getD _ i _ [] (by omega)
    rw [hgetD] at hm
    obtain ⟨c, hc, hEq⟩ := mem_colLens_batch t _ _ m hm
    rw [hEq, List.length_take, List.length_drop, Nat.add_sub_cancel_left,
      hcols c hc]
    have hiq : i + 1 ≤ N / bs := by
      by_cases hz : N % bs > 0
      · rw [if_pos hz] at hi
        omega
      · rw [if_neg hz] at hi
        omega
    exact min_bs_full bs N i hbs hiq
  · intro hpos m hm
    have hnbpos : 0 < N / bs + (if N % bs > 0 then 1 else 0) := by
      obtain ⟨q, hq⟩ : ∃ q, N / bs = q := ⟨_, rfl⟩
      obtain ⟨r, hrr⟩ : ∃ r, N % bs = r := ⟨_, rfl⟩
      have hqr : bs * q + r = N := by
        rw [← hq, ← hrr]
        exact Nat.div_add_mod N bs
      rw [hq, hrr]
      by_cases hz : r > 0
      · rw [if_pos hz]
        omega
      · rw [if_neg hz]
        rcases Nat.eq_zero_or_pos q with h | h
        · subst h
          rw [Nat.mul_zero] at hqr
          omega
        · omega
    have hgetD : batches.getD (batches.length - 1) [] =
        prepare_batch t ((N / bs + (if N % bs > 0 then 1 else 0) - 1) * bs)
          ((N / bs + (if N % bs > 0 then 1 else 0) - 1) * bs + bs) := by
      rw [hlen, hb]
      exact range_map_getD _ _ _ [] (by omega)
    rw [hgetD] at hm
    obtain ⟨c, hc, hEq⟩ := mem_colLens_batch t _ _ m hm
    rw [hEq, List.length_take, List.length_drop, Nat.add_sub_cancel_left,
      hcols c hc]
    exact min_bs_last bs N hbs hpos
  · intro b hbmem
    rw [hb] at hbmem
    obtain ⟨i, _, hib⟩ := List.mem_map.mp hbmem
    rw [← hib]
    exact prepare_batch_keys t _ _
  · intro j hj
    have hmem : (flatCols t).getD j [] ∈ flatCols t := by
      rw [List.getD_eq_getElem _ [] hj]
      exact List.getElem_mem hj
    have hcj : ((flatCols t).getD j []).length = N := hcols _ hmem
    rw [hb, List.map_map]
    have hfun : ∀ i ∈ List.range (N / bs + (if N % bs > 0 then 1 else 0)),
        ((fun b => (flatCols b).getD j []) ∘
          (fun i => prepare_batch t (i * bs) (i * bs + bs))) i =
          ((((flatCols t).getD j []).drop (i * bs)).take bs) := by
      intro i _
      simp only [Function.comp_apply]
      have hfc : flatCols (prepare_batch t (i * bs) (i * bs + bs)) =
          (flatCols t).map
            (fun c => (c.drop (i * bs)).take ((i * bs + bs) - i * bs)) :=
        flatCols_mapCols t _
      rw [hfc, getD_map_lt _ _ j [] [] hj, Nat.add_sub_cancel_left]
    rw [List.map_congr_left hfun]
    have hch := chunks_flatten bs hbs (((flatCols t).getD j []).length)
      ((flatCols t).getD j []) le_rfl
    rw [hcj] at hch
    exact hch

/-- Ten examples under one key (the 10-example table of the claim's
batch_size = 4 example). -/
theorem gen_batch_spec_witness :
    ([[("f", [[Arr.scalar 0, Arr.scalar 1, Arr.scalar 2, Arr.scalar 3]])],
      [("f", [[Arr.scalar 4, Arr.scalar 5, Arr.scalar 6, Arr.scalar 7]])],
      [("f", [[Arr.scalar 8, Arr.scalar 9]])]] : List Table).length
      = (10 + 4 - 1) / 4 :=
  (gen_batch_spec
    [("f", [[Arr.scalar 0, Arr.scalar 1, Arr.scalar 2, Arr.scalar 3,
             Arr.scalar 4, Arr.scalar 5, Arr.scalar 6, Arr.scalar 7,
             Arr.scalar 8, Arr.scalar 9]])]
    4 10 _ (by decide) rfl rfl).1

/-! ### C2: singleton handling of split -/

theorem getD_cons_add_one {α : Type} (a : α) (l : List α) (j : Nat) (d : α) :
    (a :: l).getD (j + 1) d = l.getD j d := rfl

theorem pairs_getD (vs : List Col) (F G : Col → Col) :
    ∀ (i : Nat), i < vs.length →
      (vs.flatMap (fun v => [F v, G v])).getD (i * 2) [] = F (vs.getD i []) ∧
      (vs.flatMap (fun v => [F v, G v])).getD (i * 2 + 1) [] = G (vs.getD i []) := by
  induction vs with
  | nil =>
    intro i hi
    cases hi
  | cons v rest ih =>
    intro i hi
    cases i with
    | zero => exact ⟨rfl, rfl⟩
    | succ j =>
      have hj : j < rest.length := by
        simpa using hi
      have h2 : (j + 1) * 2 = j * 2 + 1 + 1 := by ring
      rw [h2]
      exact ih j hj

theorem getD_append_offset {α : Type} (pre l : List α) (j : Nat) (d : α) :
    (pre ++ l).getD (pre.length + j) d = l.getD j d := by
  induction pre with
  | nil =>
    rw [List.nil_append, List.length_nil, Nat.zero_add]
  | cons a rest ih =>
    have h : (a :: rest).length + j = (rest.length + j) + 1 := by
      simp [Nat.succ_add]
    rw [h, List.cons_append, getD_cons_add_one]
    exact ih

theorem getD_append_lt {α : Type} (l1 l2 : List α) (j : Nat) (d : α)
    (h : j < l1.length) : (l1 ++ l2).getD j d = l1.getD j d := by
  induction l1 generalizing j with
  | nil => cases h
  | cons a rest ih =>
    cases j with
    | zero => rfl
    | succ i =>
      rw [List.cons_append, getD_cons_add_one, getD_cons_add_one]
      exact ih i (by simpa using h)

theorem map_range_getD {α β : Type} (l : List α) (d : α) (φ : α → β) :
    (List.range l.length).map (fun j => φ (l.getD j d)) = l.map φ := by
  induction l with
  | nil => rfl
  | cons a rest ih =>
    rw [List.length_cons, List.range_succ_eq_map, List.map_cons, List.map_map]
    have hpt : ∀ j ∈ List.range rest.length,
        ((fun j => φ ((a :: rest).getD j d)) ∘ Nat.succ) j =
          (fun j => φ (rest.getD j d)) j := fun j _ => rfl
    rw [List.map_congr_left hpt, ih, List.map_cons]
    rfl

theorem buildTrain_eq (F G S : Col → Col) :
    ∀ (t : Table) (pre : List Col),
      buildTrain ((pre ++ flatCols t).flatMap (fun v => [F v, G v]))
          ((pre ++ flatCols t).map S) t pre.length
        = t.map (fun kv =>
            (kv.1, kv.2.map (fun c => combine_features (F c) (S c)))) := by
  intro t
  induction t with
  | nil =>
    intro pre
    rfl
  | cons kv rest ih =>
    intro pre
    obtain ⟨k, cols⟩ := kv
    have hfc : flatCols ((k, cols) :: rest) = cols ++ flatCols rest := rfl
    simp only [buildTrain, List.map_cons, hfc]
    have hassoc : pre ++ (cols ++ flatCols rest) = (pre ++ cols) ++ flatCols rest := by
      rw [List.append_assoc]
    congr 1
    · -- head entry
      congr 1
      have hpt : ∀ j ∈ List.range cols.length,
          (fun j => combine_features
            (((pre ++ (cols ++ flatCols rest)).flatMap
                (fun v => [F v, G v])).getD ((pre.length + j) * 2) [])
            (((pre ++ (cols ++ flatCols rest)).map S).getD (pre.length + j) []))
            j
          = (fun j => combine_features (F (cols.getD j []))
              (S (cols.getD j []))) j := by
        intro j hj
        have hjlt : j < cols.length := List.mem_range.mp hj
        have hlt : pre.length + j < (pre ++ (cols ++ flatCols rest)).length := by
          rw [List.length_append, List.length_append]
          omega
        have hvs : (pre ++ (cols ++ flatCols rest)).getD (pre.length + j) [] =
            cols.getD j [] := by
          rw [getD_append_offset, getD_append_lt _ _ _ _ hjlt]
        have hF := (pairs_getD (pre ++ (cols ++ flatCols rest)) F G
          (pre.length + j) hlt).1
        simp only []
        rw [hF, hvs, getD_map_lt _ S _ [] [] hlt, hvs]
      rw [List.map_congr_left hpt, map_range_getD cols []
        (fun c => combine_features (F c) (S c))]
    · -- recursive entries
      have hlen : pre.length + cols.length = (pre ++ cols).length := by
        rw [List.length_append]
      rw [hassoc, hlen]
      exact ih (pre ++ cols)

theorem buildVal_eq (F G : Col → Col) :
    ∀ (t : Table) (pre : List Col),
      buildVal ((pre ++ flatCols t).flatMap (fun v => [F v, G v])) t pre.length
        = t.map (fun kv => (kv.1, kv.2.map G)) := by
  intro t
  induction t with
  | nil =>
    intro pre
    rfl
  | cons kv rest ih =>
    intro pre
    obtain ⟨k, cols⟩ := kv
    have hfc : flatCols ((k, cols) :: rest) = cols ++ flatCols rest := rfl
    simp only [buildVal, List.map_cons, hfc]
    have hassoc : pre ++ (cols ++ flatCols rest) = (pre ++ cols) ++ flatCols rest := by
      rw [List.append_assoc]
    congr 1
    · congr 1
      have hpt : ∀ j ∈ List.range cols.length,
          (fun j => ((pre ++ (cols ++ flatCols rest)).flatMap
              (fun v => [F v, G v])).getD ((pre.length + j) * 2 + 1) []) j
          = (fun j => G (cols.getD j [])) j := by
        intro j hj
        have hjlt : j < cols.length := List.mem_range.mp hj
        have hlt : pre.length + j < (pre ++ (cols ++ flatCols rest)).length := by
          rw [List.length_append, List.length_append]
          omega
        have hvs : (pre ++ (cols ++ flatCols rest)).getD (pre.length + j) [] =
            cols.getD j [] := by
          rw [getD_append_offset, getD_append_lt _ _ _ _ hjlt]
        have hG := (pairs_getD (pre ++ (cols ++ flatCols rest)) F G
          (pre.length + j) hlt).2
        simp only []
        rw [hG, hvs]
      rw [List.map_congr_left hpt, map_range_getD cols [] G]
    · have hlen : pre.length + cols.length = (pre ++ cols).length := by
        rw [List.length_append]
      rw [hassoc, hlen]
      exact ih (pre ++ cols)

theorem maskFilter_length_congr {α β : Type} (mask : List Bool) :
    ∀ (l1 : List α) (l2 : List β), l1.length = l2.length →
      (maskFilter mask l1).length = (maskFilter mask l2).length := by
  induction mask with
  | nil =>
    intro l1 l2 _
    rfl
  | cons b mrest ih =>
    intro l1 l2 h
    cases l1 with
    | nil =>
      cases l2 with
      | nil => rfl
      | cons y ys => cases h
    | cons x xs =>
      cases l2 with
      | nil => cases h
      | cons y ys =>
        have h2 : xs.length = ys.length := by simpa using h
        unfold maskFilter
        cases b with
        | false =>
          simpa [List.zip_cons_cons, List.filter_cons, maskFilter] using
            ih xs ys h2
        | true =>
          simpa [List.zip_cons_cons, List.filter_cons, maskFilter] using
            ih xs ys h2

theorem create_label_ids_length (c : Col) (labels : List LabelId)
    (h : create_label_ids c = .ok labels) : labels.length = c.length := by
  unfold create_label_ids at h
  split_ifs at h <;>
    (injection h with h2
     rw [← h2, List.length_map])

theorem lookup_mem (t : Table) (key : String) (v : List Col)
    (h : t.lookup key = some v) : (key, v) ∈ t := by
  induction t with
  | nil => cases h
  | cons kv rest ih =>
    obtain ⟨k0, v0⟩ := kv
    rw [List.lookup_cons] at h
    by_cases hk : key == k0
    · rw [hk] at h
      injection h with h2
      have : k0 = key := by
        have := (beq_iff_eq (a := key) (b := k0)).mp hk
        exact this.symm
      rw [this, h2] at *
      exact List.mem_cons_self _ _
    · rw [Bool.not_eq_true] at hk
      rw [hk] at h
      exact List.mem_cons_of_mem _ (ih h)

theorem mem_flatCols_of_mem (t : Table) (key : String) (cols : List Col)
    (c : Col) (hm : (key, cols) ∈ t) (hc : c ∈ cols) : c ∈ flatCols t := by
  unfold flatCols
  rw [List.mem_flatMap]
  exact ⟨(key, cols), hm, hc⟩

theorem flatMap_of_map {α β γ : Type} (l : List α) (f : α → β)
    (g : β → List γ) :
    (l.map f).flatMap g = l.flatMap (fun x => g (f x)) := by
  induction l with
  | nil => rfl
  | cons a rest ih => simp only [List.map_cons, List.flatMap_cons, ih]

/-- C2: for every table and valid label key on which `split` succeeds,
no row of a singleton class reaches the test table: every test column is a
pure index selection from the multi-example (`counts > 1`) rows, every train
column is the corresponding train selection with the singleton
(`counts == 1`) rows concatenated behind it, and per column the train and
test selections together use exactly the multi-example rows
(`|train selection| + |test selection| = |multi rows|`), train additionally
holding all singleton rows.  `tr`/`te` are the index lists chosen by
`train_test_split`; the `Perm` hypothesis is that library's contract (the
two lists partition the multi-example row range). -/
theorem split_singletons (tts : TTS) (t : Table) (n : Int) (seed : Nat)
    (key : String) (c : Col) (labels : List LabelId) (N : Nat)
    (train test : Table) (tr te : List Nat)
    (hk : t.lookup key = some [c])
    (hl : create_label_ids c = .ok labels)
    (hN : get_number_of_examples t = .ok N)
    (ho : tts (maskFilter (multiMask labels) labels).length n.toNat seed
        (maskFilter (multiMask labels) labels) = (tr, te))
    (hperm : (tr ++ te).Perm
        (List.range (maskFilter (multiMask labels) labels).length))
    (hsplit : split tts t n seed key = .ok (train, test)) :
    test = t.map (fun kv => (kv.1, kv.2.map
        (fun c0 => sel (maskFilter (multiMask labels) c0) te))) ∧
    train = t.map (fun kv => (kv.1, kv.2.map
        (fun c0 => sel (maskFilter (multiMask labels) c0) tr ++
          maskFilter (soloMask labels) c0))) ∧
    (∀ c0 ∈ flatCols t,
      tr.length + te.length = (maskFilter (multiMask labels) c0).length) := by
  have hred := split_reduce tts t n seed key c labels N hk hl hN
  have ho1 : (tts (maskFilter (multiMask labels) labels).length n.toNat seed
      (maskFilter (multiMask labels) labels)).1 = tr := by rw [ho]
  have ho2 : (tts (maskFilter (multiMask labels) labels).length n.toNat seed
      (maskFilter (multiMask labels) labels)).2 = te := by rw [ho]
  rw [ho1, ho2] at hred
  cases hcheck : check_train_test_sizes n N labels.dedup.length with
  | error e =>
    rw [hcheck] at hred
    rw [hred] at hsplit
    cases hsplit
  | ok u =>
    rw [hcheck] at hred
    rw [hred] at hsplit
    injection hsplit with hpair
    have h1 : buildTrain
        (((flatCols t).map (fun v => maskFilter (multiMask labels) v)).flatMap
          (fun v => [sel v tr, sel v te]))
        ((flatCols t).map (fun v => maskFilter (soloMask labels) v)) t 0
        = train :=
      congrArg Prod.fst hpair
    have h2 : buildVal
        (((flatCols t).map (fun v => maskFilter (multiMask labels) v)).flatMap
          (fun v => [sel v tr, sel v te])) t 0 = test :=
      congrArg Prod.snd hpair
    have hOV : ((flatCols t).map (fun v => maskFilter (multiMask labels) v)).flatMap
        (fun v => [sel v tr, sel v te]) =
        (flatCols t).flatMap (fun v =>
          [sel (maskFilter (multiMask labels) v) tr,
           sel (maskFilter (multiMask labels) v) te]) :=
      flatMap_of_map _ _ _
    rw [hOV] at h1 h2
    have hbt := buildTrain_eq (fun v => sel (maskFilter (multiMask labels) v) tr)
      (fun v => sel (maskFilter (multiMask labels) v) te)
      (fun v => maskFilter (soloMask labels) v) t []
    rw [List.nil_append] at hbt
    have hbv := buildVal_eq (fun v => sel (maskFilter (multiMask labels) v) tr)
      (fun v => sel (maskFilter (multiMask labels) v) te) t []
    rw [List.nil_append] at hbv
    refine ⟨?_, ?_, ?_⟩
    · rw [← h2]
      exact hbv
    · rw [← h1]
      exact hbt
    · intro c0 hc0
      have hc0len : c0.length = N := cols_length_of_ok t N hN c0 hc0
      have hcmem : c ∈ flatCols t :=
        mem_flatCols_of_mem t key [c] c (lookup_mem t key [c] hk)
          (List.mem_cons_self c [])
      have hclen : c.length = N := cols_length_of_ok t N hN c hcmem
      have hlab : labels.length = N := by
        rw [create_label_ids_length c labels hl, hclen]
      have hlen1 : (maskFilter (multiMask labels) c0).length =
          (maskFilter (multiMask labels) labels).length :=
        maskFilter_length_congr _ c0 labels (by rw [hc0len, hlab])
      have hlen2 : tr.length + te.length =
          (maskFilter (multiMask labels) labels).length := by
        have hpl := hperm.length_eq
        rw [List.length_append, List.length_range] at hpl
        exact hpl
      rw [hlen1]
      exact hlen2

/-- Witness for `split_singletons`: five examples with classes {0 × 4, 7 × 1},
`n = 2`: the checks pass, the split succeeds, and per column the train and
test index selections cover exactly the four multi-example rows. -/
theorem split_singletons_witness :
    (2 : Nat) + 2 = (maskFilter
      (multiMask [.ival 0, .ival 0, .ival 0, .ival 0, .ival 7])
      [Arr.scalar 0, Arr.scalar 0, Arr.scalar 0, Arr.scalar 0,
       Arr.scalar 7]).length := by
  have h := split_singletons tts_tail t5lbl 2 0 "label"
    [Arr.scalar 0, Arr.scalar 0, Arr.scalar 0, Arr.scalar 0, Arr.scalar 7]
    [.ival 0, .ival 0, .ival 0, .ival 0, .ival 7] 5
    [("label", [[Arr.scalar 0, Arr.scalar 0, Arr.scalar 7]])]
    [("label", [[Arr.scalar 0, Arr.scalar 0]])]
    [0, 1] [2, 3]
    rfl rfl rfl rfl (by decide) rfl
  exact h.2.2 _ (by decide)

/-! ### C1 / C10: the balancer -/

theorem getD_set_self {α : Type} :
    ∀ (l : List α) (i : Nat) (v d : α), i < l.length →
      (l.set i v).getD i d = v := by
  intro l
  induction l with
  | nil =>
    intro i v d h
    cases h
  | cons a rest ih =>
    intro i v d h
    cases i with
    | zero => rfl
    | succ j => exact ih j v d (by simpa using h)

theorem getD_set_ne {α : Type} :
    ∀ (l : List α) (i j : Nat) (v d : α), i ≠ j →
      (l.set i v).getD j d = l.getD j d := by
  intro l
  induction l with
  | nil =>
    intro i j v d _
    rfl
  | cons a rest ih =>
    intro i j v d hij
    cases i with
    | zero =>
      cases j with
      | zero => exact absurd rfl hij
      | succ j2 => rfl
    | succ i2 =>
      cases j with
      | zero => rfl
      | succ j2 => exact ih i2 j2 v d (fun e => hij (by rw [e]))

theorem sum_map_range_le (n : Nat) (f g : Nat → Nat) (i : Nat)
    (hle : g i ≤ f i) (heq : ∀ j, j ≠ i → g j = f j) :
    ((List.range n).map g).sum ≤ ((List.range n).map f).sum := by
  induction n with
  | zero => exact le_refl _
  | succ m ih =>
    rw [List.range_succ, List.map_append, List.map_append,
      List.sum_append, List.sum_append]
    by_cases hm : m = i
    · subst hm
      simp only [List.map_cons, List.map_nil, List.sum_cons, List.sum_nil]
      omega
    · have hg : g m = f m := heq m hm
      simp only [List.map_cons, List.map_nil, List.sum_cons, List.sum_nil, hg]
      omega

theorem sum_map_range_lt (n : Nat) (f g : Nat → Nat) (i : Nat) (hi : i < n)
    (hlt : g i < f i) (heq : ∀ j, j ≠ i → g j = f j) :
    ((List.range n).map g).sum < ((List.range n).map f).sum := by
  induction n with
  | zero => cases hi
  | succ m ih =>
    rw [List.range_succ, List.map_append, List.map_append,
      List.sum_append, List.sum_append]
    by_cases hm : m = i
    · subst hm
      have hrest : ((List.range m).map g).sum ≤ ((List.range m).map f).sum :=
        sum_map_range_le m f g m (le_of_lt hlt) heq
      simp only [List.map_cons, List.map_nil, List.sum_cons, List.sum_nil]
      omega
    · have him : i < m := by
        rcases Nat.lt_succ_iff_lt_or_eq.mp hi with h | h
        · exact h
        · exact absurd h.symm hm
      have hrec := ih him
      have hg : g m = f m := heq m hm
      simp only [List.map_cons, List.map_nil, List.sum_cons, List.sum_nil, hg]
      omega

theorem ibs_pos (counts : List Nat) (N bs i : Nat) :
    0 < index_batch_size counts N bs i :=
  Nat.succ_pos _

theorem getD_mem_of_lt {α : Type} (l : List α) (i : Nat) (d : α)
    (h : i < l.length) : l.getD i d ∈ l := by
  rw [List.getD_eq_getElem _ d h]
  exact List.getElem_mem h

theorem visit_BLen (counts : List Nat) (N bs : Nat) (s : BState) (i : Nat)
    (h : BLen counts.length s) :
    BLen counts.length (visit counts N bs s i) := by
  obtain ⟨h1, h2, h3⟩ := h
  unfold visit
  split_ifs <;> exact ⟨by simp [h1], by simp [h2], by simp [h3]⟩

theorem visit_cycles_ne (counts : List Nat) (N bs : Nat) (s : BState)
    (i j : Nat) (hij : j ≠ i) :
    (visit counts N bs s i).num_data_cycles.getD j 0 =
      s.num_data_cycles.getD j 0 := by
  unfold visit
  split_ifs
  · rfl
  · exact getD_set_ne _ i j _ 0 (fun e => hij e.symm)
  · rfl

theorem visit_idx_ne (counts : List Nat) (N bs : Nat) (s : BState)
    (i j : Nat) (hij : j ≠ i) :
    (visit counts N bs s i).data_idx.getD j 0 = s.data_idx.getD j 0 := by
  unfold visit
  split_ifs
  · rfl
  · exact getD_set_ne _ i j _ 0 (fun e => hij e.symm)
  · exact getD_set_ne _ i j _ 0 (fun e => hij e.symm)

theorem visit_BIdx (counts : List Nat) (N bs : Nat) (s : BState) (i : Nat)
    (hlen : BLen counts.length s)
    (hpos : ∀ k, k < counts.length → 0 < counts.getD k 0)
    (h : BIdx counts s) : BIdx counts (visit counts N bs s i) := by
  intro k hk
  by_cases hki : k = i
  · subst hki
    unfold visit
    split_ifs with h1 h2
    · exact h k hk
    · rw [getD_set_self _ k 0 0 (by rw [hlen.1]; exact hk)]
      exact hpos k hk
    · rw [getD_set_self _ k _ 0 (by rw [hlen.1]; exact hk)]
      omega
  · rw [visit_idx_ne counts N bs s i k hki]
    exact h k hk

theorem visit_looplen_le (counts : List Nat) (N bs : Nat) (s : BState)
    (i : Nat) (hi : i < counts.length) (hlen : BLen counts.length s) :
    looplen counts (visit counts N bs s i) ≤ looplen counts s := by
  unfold looplen visit
  split_ifs with h1 h2
  · exact le_refl _
  · apply sum_map_range_le _ _ _ i
    · rw [getD_set_self _ i _ 0 (by rw [hlen.2.1]; exact hi)]
      simp
    · intro j hji
      rw [getD_set_ne _ i j _ 0 (fun e => hji e.symm),
        getD_set_ne _ i j _ 0 (fun e => hji e.symm)]
  · apply sum_map_range_le _ _ _ i
    · by_cases hc : s.num_data_cycles.getD i 0 > 0
      · rw [if_pos hc, if_pos hc]
      · rw [if_neg hc, if_neg hc,
          getD_set_self _ i _ 0 (by rw [hlen.1]; exact hi)]
        omega
    · intro j hji
      rw [getD_set_ne _ i j _ 0 (fun e => hji e.symm)]

theorem visit_looplen_lt (counts : List Nat) (N bs : Nat) (s : BState)
    (i : Nat) (hi : i < counts.length) (hlen : BLen counts.length s)
    (hidx : BIdx counts s) (hcyc : s.num_data_cycles.getD i 0 = 0) :
    looplen counts (visit counts N bs s i) < looplen counts s := by
  have hd : s.data_idx.getD i 0 < counts.getD i 0 := hidx i hi
  unfold looplen visit
  split_ifs with h1 h2
  · rw [hcyc] at h1
    simp at h1
  · apply sum_map_range_lt _ _ _ i hi
    · rw [getD_set_self _ i _ 0 (by rw [hlen.2.1]; exact hi)]
      simp only [hcyc]
      have : (0:Nat) + 1 > 0 := by omega
      rw [if_pos this, if_neg (by omega)]
      omega
    · intro j hji
      rw [getD_set_ne _ i j _ 0 (fun e => hji e.symm),
        getD_set_ne _ i j _ 0 (fun e => hji e.symm)]
  · apply sum_map_range_lt _ _ _ i hi
    · simp only [hcyc, if_neg (show ¬((0:Nat) > 0) by omega)]
      rw [getD_set_self _ i _ 0 (by rw [hlen.1]; exact hi)]
      have := ibs_pos counts N bs i
      omega
    · intro j hji
      rw [getD_set_ne _ i j _ 0 (fun e => hji e.symm)]

theorem class_out_append_one (R : Col) (i : Nat)
    (em : List (Nat × Nat × Nat)) (e : Nat × Nat × Nat) :
    class_out R i (em ++ [e]) =
      class_out R i em ++
        (if e.1 == i then (R.drop e.2.1).take e.2.2 else []) := by
  unfold class_out
  rw [List.filter_append, List.flatMap_append]
  by_cases he : (e.1 == i) = true
  · rw [if_pos he]
    simp [List.filter_cons, he]
  · rw [if_neg he]
    simp [List.filter_cons, he]

theorem flatten_replicate_succ {α : Type} (k : Nat) (R : List α) :
    (List.replicate (k + 1) R).flatten = (List.replicate k R).flatten ++ R := by
  induction k with
  | zero => simp
  | succ m ih =>
    have h1 : List.replicate (m + 1 + 1) R = R :: List.replicate (m + 1) R := rfl
    have h2 : List.replicate (m + 1) R = R :: List.replicate m R := rfl
    conv_lhs => rw [h1, List.flatten_cons, ih]
    conv_rhs => rw [h2, List.flatten_cons]
    rw [← List.append_assoc]

theorem visit_classInv (counts : List Nat) (N bs : Nat) (s : BState)
    (i i2 : Nat) (R : Col) (hlen : BLen counts.length s)
    (hi : i < counts.length)
    (hR : i2 = i → R.length = counts.getD i 0)
    (hinv : classInv R i2 s) :
    classInv R i2 (visit counts N bs s i) := by
  unfold classInv at hinv ⊢
  by_cases hii : i2 = i
  · subst hii
    unfold visit
    split_ifs with h1 h2
    · exact hinv
    · rw [class_out_append_one, hinv]
      simp only [beq_self_eq_true, if_pos]
      rw [getD_set_self _ i2 _ 0 (by rw [hlen.2.1]; exact hi),
        getD_set_self _ i2 0 0 (by rw [hlen.1]; exact hi)]
      have hdrop : ((R.drop (s.data_idx.getD i2 0)).take
          (index_batch_size counts N bs i2)) = R.drop (s.data_idx.getD i2 0) := by
        apply List.take_of_length_le
        rw [List.length_drop, hR rfl]
        omega
      rw [hdrop, List.take_zero, List.append_nil, flatten_replicate_succ,
        List.append_assoc, List.take_append_drop]
    · rw [class_out_append_one, hinv]
      simp only [beq_self_eq_true, if_pos]
      rw [getD_set_self _ i2 _ 0 (by rw [hlen.1]; exact hi)]
      rw [List.take_add, List.append_assoc]
  · have hne : ((i : Nat) == i2) = false := by
      rw [beq_eq_false_iff_ne]
      exact fun e => hii e.symm
    unfold visit
    split_ifs with h1 h2
    · exact hinv
    · rw [class_out_append_one, hne, if_neg (by simp), List.append_nil,
        getD_set_ne _ i i2 _ 0 (fun e => hii e.symm),
        getD_set_ne _ i i2 _ 0 (fun e => hii e.symm)]
      exact hinv
    · rw [class_out_append_one, hne, if_neg (by simp), List.append_nil,
        getD_set_ne _ i i2 _ 0 (fun e => hii e.symm)]
      exact hinv

theorem contains_zero_iff (l : List Nat) : l.contains 0 = true ↔ 0 ∈ l :=
  List.elem_iff

theorem round_BLen (counts : List Nat) (N bs : Nat) :
    ∀ (order : List Nat) (s : BState), BLen counts.length s →
      BLen counts.length (run_round counts N bs order s) := by
  intro order
  induction order with
  | nil =>
    intro s h
    exact h
  | cons i rest ih =>
    intro s h
    unfold run_round
    have h1 := visit_BLen counts N bs s i h
    by_cases hc : (visit counts N bs s i).num_data_cycles.contains 0 = true
    · rw [if_pos hc]
      exact ih _ h1
    · rw [if_neg hc]
      exact h1

theorem round_BIdx (counts : List Nat) (N bs : Nat)
    (hpos : ∀ k, k < counts.length → 0 < counts.getD k 0) :
    ∀ (order : List Nat) (s : BState), BLen counts.length s → BIdx counts s →
      BIdx counts (run_round counts N bs order s) := by
  intro order
  induction order with
  | nil =>
    intro s _ h
    exact h
  | cons i rest ih =>
    intro s hl h
    unfold run_round
    have h1 := visit_BIdx counts N bs s i hl hpos h
    have hl1 := visit_BLen counts N bs s i hl
    by_cases hc : (visit counts N bs s i).num_data_cycles.contains 0 = true
    · rw [if_pos hc]
      exact ih _ hl1 h1
    · rw [if_neg hc]
      exact h1

theorem round_looplen_le (counts : List Nat) (N bs : Nat) :
    ∀ (order : List Nat) (s : BState), BLen counts.length s →
      (∀ j ∈ order, j < counts.length) →
      looplen counts (run_round counts N bs order s) ≤ looplen counts s := by
  intro order
  induction order with
  | nil =>
    intro s _ _
    exact le_refl _
  | cons i rest ih =>
    intro s hl horder
    unfold run_round
    have hv := visit_looplen_le counts N bs s i
      (horder i (List.mem_cons_self i rest)) hl
    have hl1 := visit_BLen counts N bs s i hl
    by_cases hc : (visit counts N bs s i).num_data_cycles.contains 0 = true
    · rw [if_pos hc]
      exact le_trans (ih _ hl1 (fun j hj => horder j (List.mem_cons_of_mem i hj))) hv
    · rw [if_neg hc]
      exact hv

theorem round_looplen_lt (counts : List Nat) (N bs : Nat)
    (hpos : ∀ k, k < counts.length → 0 < counts.getD k 0) :
    ∀ (order : List Nat) (s : BState) (i0 : Nat),
      BLen counts.length s → BIdx counts s →
      (∀ j ∈ order, j < counts.length) →
      i0 ∈ order → i0 < counts.length →
      s.num_data_cycles.getD i0 0 = 0 →
      looplen counts (run_round counts N bs order s) < looplen counts s := by
  intro order
  induction order with
  | nil =>
    intro s i0 _ _ _ hmem _ _
    cases hmem
  | cons i rest ih =>
    intro s i0 hl hidx horder hmem hi0 hcyc
    unfold run_round
    have hl1 := visit_BLen counts N bs s i hl
    have hidx1 := visit_BIdx counts N bs s i hl hpos hidx
    by_cases hii : i = i0
    · subst hii
      have hstrict := visit_looplen_lt counts N bs s i
        (horder i (List.mem_cons_self i rest)) hl hidx hcyc
      by_cases hc : (visit counts N bs s i).num_data_cycles.contains 0 = true
      · rw [if_pos hc]
        exact lt_of_le_of_lt
          (round_looplen_le counts N bs rest _ hl1
            (fun j hj => horder j (List.mem_cons_of_mem i hj))) hstrict
      · rw [if_neg hc]
        exact hstrict
    · have hmem2 : i0 ∈ rest := by
        rcases List.mem_cons.mp hmem with h | h
        · exact absurd h.symm hii
        · exact h
      have hcyc1 : (visit counts N bs s i).num_data_cycles.getD i0 0 = 0 := by
        rw [visit_cycles_ne counts N bs s i i0 (fun e => hii e.symm)]
        exact hcyc
      have hle := visit_looplen_le counts N bs s i
        (horder i (List.mem_cons_self i rest)) hl
      have hc : (visit counts N bs s i).num_data_cycles.contains 0 = true := by
        rw [contains_zero_iff]
        have : (visit counts N bs s i).num_data_cycles.getD i0 0 ∈
            (visit counts N bs s i).num_data_cycles := by
          apply getD_mem_of_lt
          rw [(visit_BLen counts N bs s i hl).2.1]
          exact hi0
        rw [hcyc1] at this
        exact this
      rw [if_pos hc]
      exact lt_of_lt_of_le
        (ih _ i0 hl1 hidx1 (fun j hj => horder j (List.mem_cons_of_mem i hj))
          hmem2 hi0 hcyc1) hle

theorem round_classInv (counts : List Nat) (N bs : Nat) (R : Col) (i2 : Nat)
    (hRlen : R.length = counts.getD i2 0) :
    ∀ (order : List Nat) (s : BState), BLen counts.length s →
      (∀ j ∈ order, j < counts.length) →
      classInv R i2 s → classInv R i2 (run_round counts N bs order s) := by
  intro order
  induction order with
  | nil =>
    intro s _ _ h
    exact h
  | cons i rest ih =>
    intro s hl horder hinv
    unfold run_round
    have h1 := visit_classInv counts N bs s i i2 R hl
      (horder i (List.mem_cons_self i rest))
      (fun e => by rw [← e]; exact hRlen) hinv
    have hl1 := visit_BLen counts N bs s i hl
    by_cases hc : (visit counts N bs s i).num_data_cycles.contains 0 = true
    · rw [if_pos hc]
      exact ih _ hl1 (fun j hj => horder j (List.mem_cons_of_mem i hj)) h1
    · rw [if_neg hc]
      exact h1

theorem loop_terminates (counts : List Nat) (N bs : Nat)
    (perms : Nat → List Nat)
    (hpos : ∀ k, k < counts.length → 0 < counts.getD k 0)
    (hperms : ∀ r, (∀ j ∈ perms r, j < counts.length) ∧
      (∀ i, i < counts.length → i ∈ perms r)) :
    ∀ (m : Nat) (s : BState) (r : Nat),
      BLen counts.length s → BIdx counts s → looplen counts s ≤ m →
      ∃ s', balance_loop counts N bs perms (m + 1) r s = some s' := by
  intro m
  induction m using Nat.strong_induction_on with
  | _ m ih =>
    intro s r hl hidx hm
    by_cases hc : s.num_data_cycles.contains 0 = true
    · obtain ⟨i0, hi0lt, hi0⟩ :
          ∃ i0, i0 < counts.length ∧ s.num_data_cycles.getD i0 0 = 0 := by
        rw [contains_zero_iff] at hc
        obtain ⟨k, hk, hke⟩ := List.mem_iff_getElem.mp hc
        refine ⟨k, ?_, ?_⟩
        · rw [← hl.2.1]
          exact hk
        · rw [List.getD_eq_getElem _ 0 hk]
          exact hke
      have hstrict := round_looplen_lt counts N bs hpos (perms r) s i0 hl hidx
        (hperms r).1 ((hperms r).2 i0 hi0lt) hi0lt hi0
      have hpos1 : 1 ≤ looplen counts s := by
        have hterm : (1:Nat) ≤ (if s.num_data_cycles.getD i0 0 > 0 then 0
            else counts.getD i0 0 - s.data_idx.getD i0 0) := by
          rw [hi0, if_neg (by omega)]
          have := hidx i0 hi0lt
          omega
        have hmem : (if s.num_data_cycles.getD i0 0 > 0 then 0
            else counts.getD i0 0 - s.data_idx.getD i0 0) ∈
            (List.range counts.length).map (fun i =>
              if s.num_data_cycles.getD i 0 > 0 then 0
              else counts.getD i 0 - s.data_idx.getD i 0) :=
          List.mem_map_of_mem _ (List.mem_range.mpr hi0lt)
        exact le_trans hterm (List.le_sum_of_mem hmem)
      have hm1 : 1 ≤ m := le_trans hpos1 hm
      have hl1 : BLen counts.length (run_round counts N bs (perms r) s) :=
        round_BLen counts N bs (perms r) s hl
      have hidx1 : BIdx counts (run_round counts N bs (perms r) s) :=
        round_BIdx counts N bs hpos (perms r) s hl hidx
      obtain ⟨s', hs'⟩ := ih (m - 1) (by omega) (run_round counts N bs (perms r) s)
        (r + 1) hl1 hidx1 (by omega)
      refine ⟨s', ?_⟩
      unfold balance_loop
      rw [if_pos hc]
      have hmm : m = (m - 1) + 1 := by omega
      rw [hmm]
      exact hs'
    · refine ⟨s, ?_⟩
      unfold balance_loop
      rw [if_neg hc]

theorem loop_classInv (counts : List Nat) (N bs : Nat)
    (perms : Nat → List Nat) (R : Col) (i2 : Nat)
    (hRlen : R.length = counts.getD i2 0)
    (hperms : ∀ r, ∀ j ∈ perms r, j < counts.length) :
    ∀ (fuel : Nat) (r : Nat) (s s' : BState),
      balance_loop counts N bs perms fuel r s = some s' →
      BLen counts.length s → classInv R i2 s →
      classInv R i2 s' ∧ s'.num_data_cycles.contains 0 = false ∧
        BLen counts.length s' := by
  intro fuel
  induction fuel with
  | zero =>
    intro r s s' h
    cases h
  | succ f ih =>
    intro r s s' h hl hinv
    unfold balance_loop at h
    by_cases hc : s.num_data_cycles.contains 0 = true
    · rw [if_pos hc] at h
      exact ih (r + 1) _ s' h (round_BLen counts N bs (perms r) s hl)
        (round_classInv counts N bs R i2 hRlen (perms r) s hl (hperms r) hinv)
    · rw [if_neg hc] at h
      injection h with h2
      subst h2
      exact ⟨hinv, by simpa using hc, hl⟩

theorem getD_replicate_zero : ∀ (n i : Nat), (List.replicate n (0:Nat)).getD i 0 = 0 := by
  intro n
  induction n with
  | zero =>
    intro i
    rfl
  | succ m ih =>
    intro i
    cases i with
    | zero => rfl
    | succ j => exact ih j

theorem uniq_map_fst (labels : List LabelId) :
    (uniqueCounts labels).map (fun p => p.1) =
      (labels.dedup).insertionSort (fun a b => LabelId.leb a b = true) := by
  unfold uniqueCounts
  rw [List.map_map]
  exact List.map_id _

theorem counts_getD_eq (labels : List LabelId) (i : Nat)
    (hi : i < (uniqueCounts labels).length) :
    ((uniqueCounts labels).map (fun p => p.2)).getD i 0 =
      labels.count (((uniqueCounts labels).map (fun p => p.1)).getD i (.ival 0)) := by
  have h1 := getD_map_lt (uniqueCounts labels) (fun p => p.2) i 0 (⟨.ival 0, 0⟩) hi
  have h2 := getD_map_lt (uniqueCounts labels) (fun p => p.1) i (.ival 0) (⟨.ival 0, 0⟩) hi
  rw [h1, h2]
  have hmem : (uniqueCounts labels).getD i (⟨.ival 0, 0⟩) ∈ uniqueCounts labels :=
    getD_mem_of_lt _ i _ hi
  unfold uniqueCounts at hmem
  obtain ⟨u, _, hue⟩ := List.mem_map.mp hmem
  unfold uniqueCounts
  rw [← hue]

theorem uniqueCounts_pos (labels : List LabelId) :
    ∀ k, k < ((uniqueCounts labels).map (fun p => p.2)).length →
      0 < ((uniqueCounts labels).map (fun p => p.2)).getD k 0 := by
  intro k hk
  have hk2 : k < (uniqueCounts labels).length := by simpa using hk
  rw [counts_getD_eq labels k hk2]
  apply List.count_pos_iff.mpr
  rw [uniq_map_fst labels]
  have hmem : ((labels.dedup.insertionSort
        (fun a b => LabelId.leb a b = true)).getD k (.ival 0)) ∈
      labels.dedup.insertionSort (fun a b => LabelId.leb a b = true) := by
    apply getD_mem_of_lt
    rw [← uniq_map_fst labels]
    simpa using hk2
  rw [List.mem_insertionSort] at hmem
  exact List.mem_dedup.mp hmem

theorem maskFilter_class_length (u : LabelId) :
    ∀ (labels : List LabelId) (c0 : Col), c0.length = labels.length →
      (maskFilter (class_mask labels u) c0).length = labels.count u := by
  intro labels
  induction labels with
  | nil =>
    intro c0 h
    rfl
  | cons l ls ih =>
    intro c0 h
    cases c0 with
    | nil => cases h
    | cons x xs =>
      have h2 : xs.length = ls.length := by simpa using h
      have hrec := ih xs h2
      unfold class_mask maskFilter at hrec ⊢
      by_cases hbeq : (l == u) = true
      · simp [List.filter_cons, hbeq, List.count_cons, hrec]
      · simp [List.filter_cons, hbeq, List.count_cons, hrec]

theorem mem_maskFilter_getD {α : Type} :
    ∀ (mask : List Bool) (l : List α) (p : Nat) (d : α),
      p < l.length → p < mask.length → mask.getD p false = true →
      l.getD p d ∈ maskFilter mask l := by
  intro mask
  induction mask with
  | nil =>
    intro l p d _ hp _
    cases hp
  | cons b ms ih =>
    intro l p d hl hp hm
    cases l with
    | nil => cases hl
    | cons x xs =>
      cases p with
      | zero =>
        have hb : b = true := hm
        unfold maskFilter
        rw [List.zip_cons_cons, List.filter_cons, if_pos (by simpa using hb)]
        exact List.mem_cons_self _ _
      | succ q =>
        have hrec := ih xs q d (by simpa using hl) (by simpa using hp) hm
        unfold maskFilter at hrec ⊢
        rw [List.zip_cons_cons, List.filter_cons]
        by_cases hb : b = true
        · rw [if_pos (by simpa using hb)]
          exact List.mem_cons_of_mem _ hrec
        · rw [if_neg (by simpa using hb)]
          exact hrec

theorem class_out_subset_emit (labels uniq : List LabelId) (i : Nat)
    (c0 : Col) (em : List (Nat × Nat × Nat)) (row : Arr)
    (h : row ∈ class_out (class_col labels uniq i c0) i em) :
    row ∈ emit_col labels uniq em c0 := by
  unfold class_out at h
  rw [List.mem_flatMap] at h
  obtain ⟨e, he, hrow⟩ := h
  rw [List.mem_filter] at he
  have hei : e.1 = i := by
    have := he.2
    simpa using this
  unfold emit_col
  rw [List.mem_flatMap]
  refine ⟨e, he.1, ?_⟩
  rw [hei]
  exact hrow

theorem classInv_init (R : Col) (i n : Nat) :
    classInv R i (initBState n) := by
  unfold classInv initBState class_out
  simp [getD_replicate_zero]

set_option maxHeartbeats 2000000 in
/-- C10: `balance` terminates on every table whose label key references
exactly one column, whose label ids derive successfully, and whose column
sizes agree — each round every class whose pass counter is still zero is
visited (the visitation order covers all classes) and advances its cursor by
`index_batch_size ≥ 1`, so the loop measure strictly decreases and
`min(num_data_cycles) == 0` eventually fails.  Stated over the fuelled
embedding: some fuel makes the loop finish with a result. -/
theorem balance_terminates (perms : Nat → List Nat) (t : Table) (bs : Nat)
    (key : String) (c : Col) (labels : List LabelId) (N : Nat)
    (hk : t.lookup key = some [c])
    (hl : create_label_ids c = .ok labels)
    (hN : get_number_of_examples t = .ok N)
    (hperms : ∀ r, (∀ j ∈ perms r, j < (uniqueCounts labels).length) ∧
      (∀ i, i < (uniqueCounts labels).length → i ∈ perms r)) :
    ∃ fuel res, balance perms fuel t bs key = .ok res := by
  have hpos := uniqueCounts_pos labels
  have hulen : ((uniqueCounts labels).map (fun p => p.1)).length =
      ((uniqueCounts labels).map (fun p => p.2)).length := by
    rw [List.length_map, List.length_map]
  have hinitBLen : BLen ((uniqueCounts labels).map (fun p => p.2)).length
      (initBState ((uniqueCounts labels).map (fun p => p.1)).length) := by
    refine ⟨?_, ?_, ?_⟩ <;> simp [initBState, hulen]
  have hinitBIdx : BIdx ((uniqueCounts labels).map (fun p => p.2))
      (initBState ((uniqueCounts labels).map (fun p => p.1)).length) := by
    intro k hk2
    unfold initBState
    simp only
    rw [getD_replicate_zero]
    exact hpos k hk2
  obtain ⟨s', hs'⟩ := loop_terminates ((uniqueCounts labels).map (fun p => p.2))
    N bs perms hpos
    (fun r => ⟨fun j hj => by
        have := (hperms r).1 j hj
        simpa using this,
      fun i hi => (hperms r).2 i (by simpa using hi)⟩)
    (looplen ((uniqueCounts labels).map (fun p => p.2))
      (initBState ((uniqueCounts labels).map (fun p => p.1)).length))
    (initBState ((uniqueCounts labels).map (fun p => p.1)).length) 0
    hinitBLen hinitBIdx (le_refl _)
  refine ⟨looplen ((uniqueCounts labels).map (fun p => p.2))
      (initBState ((uniqueCounts labels).map (fun p => p.1)).length) + 1,
    t.map (fun kv => (kv.1, kv.2.map (fun v =>
      emit_col labels ((uniqueCounts labels).map (fun p => p.1)) s'.emitted v))),
    ?_⟩
  simp only [balance, hk, hl, hN]
  rw [if_neg (by simp : ¬([c].length > 1)), hs']

theorem rangePerms_valid (labels : List LabelId) (n : Nat)
    (hn : (uniqueCounts labels).length = n) (r : Nat) :
    (∀ j ∈ rangePerms n r, j < (uniqueCounts labels).length) ∧
      (∀ i, i < (uniqueCounts labels).length → i ∈ rangePerms n r) := by
  subst hn
  unfold rangePerms
  exact ⟨fun j hj => List.mem_range.mp hj, fun i hi => List.mem_range.mpr hi⟩

/-- Witness for `balance_terminates`: the 13-example, 3-class table with
`shuffle=False` visitation order and batch size 2. -/
theorem balance_terminates_witness :
    ∃ fuel res, balance (rangePerms 3) fuel t13 2 "label" = .ok res := by
  apply balance_terminates (rangePerms 3) t13 2 "label"
    [Arr.scalar 0,
     Arr.scalar 1, Arr.scalar 1,
     Arr.scalar 2, Arr.scalar 2, Arr.scalar 2, Arr.scalar 2, Arr.scalar 2,
     Arr.scalar 2, Arr.scalar 2, Arr.scalar 2, Arr.scalar 2, Arr.scalar 2]
    [.ival 0,
     .ival 1, .ival 1,
     .ival 2, .ival 2, .ival 2, .ival 2, .ival 2,
     .ival 2, .ival 2, .ival 2, .ival 2, .ival 2] 13
    rfl rfl rfl
  exact rangePerms_valid _ 3 (by decide)

/-- C1, counterexample.  On the claim's own synthetic table — 13 examples in
three classes of sizes {1, 2, 10} — `balance(batch_size=2, shuffle=False)`
runs to completion but returns 16 rows, not 13: the one-row class is emitted
three times and one row of the two-row class twice, so the total count and
the row multiset are NOT preserved (rows of rare classes are repeated, as the
method's own docstring announces). -/
theorem balance_multiset_counterexample :
    resultRowCount (balance (rangePerms 3) 10 t13 2 "label") = some 16 ∧
      get_number_of_examples t13 = .ok 13 :=
  ⟨by decide, rfl⟩

set_option maxHeartbeats 2000000 in
/-- C1 (amended): whenever `balance` runs to completion, NO row is dropped —
every row of every column of the input appears in the corresponding output
column (each class completes at least one full pass, and a completed pass
emits the whole class) — but rows of classes that finish their pass early
may be duplicated, so the total example count can exceed the input's. -/
theorem balance_no_row_dropped (perms : Nat → List Nat) (fuel : Nat)
    (t : Table) (bs : Nat) (key : String) (c : Col) (labels : List LabelId)
    (N : Nat) (res : Table)
    (hk : t.lookup key = some [c])
    (hl : create_label_ids c = .ok labels)
    (hN : get_number_of_examples t = .ok N)
    (hperms : ∀ r, ∀ j ∈ perms r, j < (uniqueCounts labels).length)
    (hres : balance perms fuel t bs key = .ok res) :
    ∀ kv ∈ t, ∀ c0 ∈ kv.2, ∀ row ∈ c0,
      ∃ cols', (kv.1, cols') ∈ res ∧ ∃ c1 ∈ cols', row ∈ c1 := by
  simp only [balance, hk, hl, hN] at hres
  rw [if_neg (by simp : ¬([c].length > 1))] at hres
  cases hloop : balance_loop ((uniqueCounts labels).map (fun p => p.2)) N bs
      perms fuel 0 (initBState ((uniqueCounts labels).map (fun p => p.1)).length) with
  | none =>
    rw [hloop] at hres
    cases hres
  | some s =>
    rw [hloop] at hres
    injection hres with hres2
    subst hres2
    intro kv hkv c0 hc0 row hrow
    have hkv2 : (kv.1, kv.2) ∈ t := by
      rw [show ((kv.1, kv.2) : String × List Col) = kv from rfl]
      exact hkv
    have hc0mem : c0 ∈ flatCols t := mem_flatCols_of_mem t kv.1 kv.2 c0 hkv2 hc0
    have hc0N : c0.length = N := cols_length_of_ok t N hN c0 hc0mem
    have hcmem : c ∈ flatCols t :=
      mem_flatCols_of_mem t key [c] c (lookup_mem t key [c] hk)
        (List.mem_cons_self c [])
    have hcN : c.length = N := cols_length_of_ok t N hN c hcmem
    have hlabN : labels.length = N := by
      rw [create_label_ids_length c labels hl, hcN]
    obtain ⟨p, hp, hpe⟩ := List.mem_iff_getElem.mp hrow
    have hpl : p < labels.length := by omega
    have humem : labels.getD p (.ival 0) ∈ labels := getD_mem_of_lt _ p _ hpl
    have humem2 : labels.getD p (.ival 0) ∈
        (uniqueCounts labels).map (fun q => q.1) := by
      rw [uniq_map_fst labels, List.mem_insertionSort, List.mem_dedup]
      exact humem
    obtain ⟨i, hi, hie⟩ := List.mem_iff_getElem.mp humem2
    have hiuc : i < (uniqueCounts labels).length := by simpa using hi
    have hgetu : ((uniqueCounts labels).map (fun q => q.1)).getD i (.ival 0) =
        labels.getD p (.ival 0) := by
      rw [List.getD_eq_getElem _ (.ival 0) hi]
      exact hie
    -- the class's row group and its size
    have hRlen : (class_col labels ((uniqueCounts labels).map (fun q => q.1))
        i c0).length = ((uniqueCounts labels).map (fun p => p.2)).getD i 0 := by
      unfold class_col
      rw [counts_getD_eq labels i hiuc, hgetu]
      exact maskFilter_class_length (labels.getD p (.ival 0)) labels c0
        (by rw [hc0N, hlabN])
    -- transport the invariant through the loop
    have hulen2 : ((uniqueCounts labels).map (fun q => q.1)).length =
        ((uniqueCounts labels).map (fun p => p.2)).length := by
      rw [List.length_map, List.length_map]
    have hinitBLen : BLen ((uniqueCounts labels).map (fun p => p.2)).length
        (initBState ((uniqueCounts labels).map (fun q => q.1)).length) := by
      refine ⟨?_, ?_, ?_⟩ <;> simp [initBState, hulen2]
    have hloopinv := loop_classInv ((uniqueCounts labels).map (fun p => p.2))
      N bs perms
      (class_col labels ((uniqueCounts labels).map (fun q => q.1)) i c0) i hRlen
      (fun r j hj => by
        have := hperms r j hj
        simpa using this)
      fuel 0 _ s hloop hinitBLen (classInv_init _ i _)
    obtain ⟨hinv, hnozero, hslen⟩ := hloopinv
    -- the class completed at least one pass
    have hcycpos : 0 < s.num_data_cycles.getD i 0 := by
      rcases Nat.eq_zero_or_pos (s.num_data_cycles.getD i 0) with h0 | h
      · exfalso
        have hmem : s.num_data_cycles.getD i 0 ∈ s.num_data_cycles := by
          apply getD_mem_of_lt
          rw [hslen.2.1]
          simpa using hiuc
        rw [h0] at hmem
        rw [← contains_zero_iff] at hmem
        rw [hmem] at hnozero
        cases hnozero
      · exact h
    obtain ⟨m, hm⟩ : ∃ m, s.num_data_cycles.getD i 0 = m + 1 :=
      ⟨s.num_data_cycles.getD i 0 - 1, by omega⟩
    -- the row sits in the class's row group
    have hrowR : row ∈ class_col labels
        ((uniqueCounts labels).map (fun q => q.1)) i c0 := by
      unfold class_col
      have hmaskp : (class_mask labels (((uniqueCounts labels).map
          (fun q => q.1)).getD i (.ival 0))).getD p false = true := by
        unfold class_mask
        rw [getD_map_lt labels _ p false (.ival 0) hpl, hgetu]
        exact beq_self_eq_true _
      have hc0p : c0.getD p (Arr.scalar 0) = row := by
        rw [List.getD_eq_getElem _ _ hp]
        exact hpe
      rw [← hc0p]
      apply mem_maskFilter_getD _ c0 p (Arr.scalar 0) hp _ hmaskp
      unfold class_mask
      rw [List.length_map]
      exact hpl
    -- hence in what the class emitted
    have hrowOut : row ∈ class_out (class_col labels
        ((uniqueCounts labels).map (fun q => q.1)) i c0) i s.emitted := by
      unfold classInv at hinv
      rw [hinv, hm, flatten_replicate_succ]
      exact List.mem_append.mpr (Or.inl (List.mem_append.mpr (Or.inr hrowR)))
    have hrowEmit : row ∈ emit_col labels
        ((uniqueCounts labels).map (fun q => q.1)) s.emitted c0 :=
      class_out_subset_emit _ _ i c0 s.emitted row hrowOut
    refine ⟨_, List.mem_map.mpr ⟨kv, hkv, rfl⟩, ?_⟩
    exact ⟨_, List.mem_map.mpr ⟨c0, hc0, rfl⟩, hrowEmit⟩

/-- Witness for `balance_no_row_dropped`: on the 13-example table, the
balanced output (16 rows) still contains the two-row class's row
`Arr.scalar 1`. -/
theorem balance_no_row_dropped_witness :
    ∃ cols', ("label", cols') ∈
        [("label",
          [[Arr.scalar 0, Arr.scalar 1, Arr.scalar 2, Arr.scalar 2,
            Arr.scalar 1, Arr.scalar 2, Arr.scalar 2, Arr.scalar 0,
            Arr.scalar 2, Arr.scalar 2, Arr.scalar 1, Arr.scalar 2,
            Arr.scalar 2, Arr.scalar 0, Arr.scalar 2, Arr.scalar 2]])] ∧
      ∃ c1 ∈ cols', Arr.scalar 1 ∈ c1 := by
  have h := balance_no_row_dropped (rangePerms 3) 10 t13 2 "label"
    [Arr.scalar 0,
     Arr.scalar 1, Arr.scalar 1,
     Arr.scalar 2, Arr.scalar 2, Arr.scalar 2, Arr.scalar 2, Arr.scalar 2,
     Arr.scalar 2, Arr.scalar 2, Arr.scalar 2, Arr.scalar 2, Arr.scalar 2]
    [.ival 0,
     .ival 1, .ival 1,
     .ival 2, .ival 2, .ival 2, .ival 2, .ival 2,
     .ival 2, .ival 2, .ival 2, .ival 2, .ival 2] 13
    [("label",
      [[Arr.scalar 0, Arr.scalar 1, Arr.scalar 2, Arr.scalar 2,
        Arr.scalar 1, Arr.scalar 2, Arr.scalar 2, Arr.scalar 0,
        Arr.scalar 2, Arr.scalar 2, Arr.scalar 1, Arr.scalar 2,
        Arr.scalar 2, Arr.scalar 0, Arr.scalar 2, Arr.scalar 2]])]
    rfl rfl rfl (fun r => (rangePerms_valid _ 3 (by decide) r).1) (by decide)
  exact h _ (List.mem_cons_self _ [])
    _ (List.mem_cons_self _ []) (Arr.scalar 1) (by decide)

end TfData
